import Mathlib

/-!
# Verification of the exrandom exact-sampling library

A shallow embedding of the core of the exrandom library
(`include/exrandom/*.hpp`): the base-b digit source (`rand_digit`), the
lazily materialized real deviate (`u_rand`), the lazily materialized
uniform integer (`i_rand`), the unit exponential sampler
(`unit_exponential_dist`, Algorithms V and E) and the discrete normal
sampler (`discrete_normal_dist`, Algorithm D).

Randomness is modelled by an explicit digit stream `σ : ℕ → ℕ` together
with a read position that is threaded through every operation; a call to
the digit generator reads `σ pos` and advances the position.  Loops whose
termination holds only with probability one are given an explicit fuel
argument and return `Option`; `none` means the fuel was exhausted.
Machine integers (`int`, `long long`) are modelled by `ℤ` with the
overflow guards of the source expressed as explicit bound checks;
C++ integer division (truncation toward zero) is `Int.tdiv`.
The floating-point type `RealType` of `u_rand::value` is modelled by `ℚ`:
the assembly steps of `value` are exact in `RealType` by design, so exact
rational arithmetic is the faithful interpretation.
-/

namespace Exrandom

/-! ## Digit source: `rand_digit.hpp` -/

/-- State of a `rand_digit<b>`: the number of digits drawn so far
(`long long _count` in the source). -/
structure RandDigit where
  count : ℤ
  deriving Repr, DecidableEq

/-- One draw of `rand_digit<b>::operator()`, acting on a single generator
word `w`.  `bits` is `digit_arithmetic<b>::bits`, `pow2` is
`digit_arithmetic<b>::power_of_two`, and `gmin`/`gmax` are
`Generator::min()`/`Generator::max()`.  The first two branches are the
fast paths for 32-bit and 64-bit word generators; the final branch is
modelled from the spec: `std::uniform_int_distribution` over
`[min_value, max_value] = [0, b-1]` is an external collaborator (a
uniform-int rejection sampler over `[0, b)` whose result lies in that
range), so it is represented by a reduction of the word into `[0, b)`. -/
def randDigitDraw (b bits : ℕ) (pow2 : Bool) (gmin gmax w : ℕ) : ℕ :=
  if pow2 = true ∧ gmin = 0 ∧ gmax = 2 ^ 32 - 1 then
    w % 2 ^ 32 / 2 ^ (32 - bits)
  else if pow2 = true ∧ gmin = 0 ∧ gmax = 2 ^ 64 - 1 then
    w % 2 ^ 64 % 2 ^ 32 / 2 ^ (32 - bits)
  else
    w % b

/-- `rand_digit<b>::operator()`: returns the drawn digit and the state with
the count incremented (`++_count`). -/
def randDigitOp (b bits : ℕ) (pow2 : Bool) (gmin gmax : ℕ) (st : RandDigit)
    (w : ℕ) : ℕ × RandDigit :=
  (randDigitDraw b bits pow2 gmin gmax w, ⟨st.count + 1⟩)

/-- Run `n` successive calls of `rand_digit::operator()` on the word stream
`ω`, starting from state `st`. -/
def randDigitRun (b bits : ℕ) (pow2 : Bool) (gmin gmax : ℕ) (ω : ℕ → ℕ)
    (st : RandDigit) : ℕ → RandDigit
  | 0 => st
  | n + 1 => randDigitRun b bits pow2 gmin gmax ω
      (randDigitOp b bits pow2 gmin gmax st (ω st.count.toNat)).2 n

end Exrandom

namespace Exrandom

/-- C7: every digit returned by `rand_digit::operator()` lies in `[0, b)`
(on the power-of-two fast paths as well as on the rejection-sampler path),
each call increments the count by exactly one, and hence after `n` calls
from a freshly constructed source the count equals `n` (in particular the
count is non-decreasing). -/
theorem rand_digit_range_count (b bits : ℕ) (pow2 : Bool) (gmin gmax : ℕ)
    (hb : 2 ≤ b) (hbits : bits ≤ 32) (hpow : pow2 = true → b = 2 ^ bits) :
    (∀ st w, (randDigitOp b bits pow2 gmin gmax st w).1 < b ∧
      (randDigitOp b bits pow2 gmin gmax st w).2.count = st.count + 1) ∧
    (∀ ω n, (randDigitRun b bits pow2 gmin gmax ω ⟨0⟩ n).count = n) := by
  have hdraw : ∀ w, randDigitDraw b bits pow2 gmin gmax w < b := by
    intro w
    unfold randDigitDraw
    split
    · next h =>
      rw [hpow h.1]
      have h32 : w % 2 ^ 32 < 2 ^ 32 := Nat.mod_lt _ (by positivity)
      have : w % 2 ^ 32 < 2 ^ (32 - bits) * 2 ^ bits := by
        rw [← pow_add, Nat.sub_add_cancel hbits]; exact h32
      exact Nat.div_lt_of_lt_mul this
    · split
      · rename_i h
        rw [hpow h.1]
        have h32 : w % 2 ^ 64 % 2 ^ 32 < 2 ^ 32 := Nat.mod_lt _ (by positivity)
        have : w % 2 ^ 64 % 2 ^ 32 < 2 ^ (32 - bits) * 2 ^ bits := by
          rw [← pow_add, Nat.sub_add_cancel hbits]; exact h32
        exact Nat.div_lt_of_lt_mul this
      · exact Nat.mod_lt _ (by omega)
  have hcount : ∀ st n ω, (randDigitRun b bits pow2 gmin gmax ω st n).count =
      st.count + n := by
    intro st n
    induction n generalizing st with
    | zero => intro ω; simp [randDigitRun]
    | succ m ih =>
      intro ω
      rw [randDigitRun, ih]
      simp [randDigitOp]
      ring
  refine ⟨fun st w => ⟨hdraw w, rfl⟩, fun ω n => ?_⟩
  rw [hcount]
  simp

/-- Witness for `rand_digit_range_count`: concrete instance at base 8 on
the 32-bit fast path. -/
theorem rand_digit_range_count_wit :
    ((randDigitOp 8 3 true 0 (2 ^ 32 - 1) ⟨0⟩ 12345).1 < 8 ∧
      (randDigitOp 8 3 true 0 (2 ^ 32 - 1) ⟨0⟩ 12345).2.count = 0 + 1) ∧
    (randDigitRun 8 3 true 0 (2 ^ 32 - 1) (fun _ => 7) ⟨0⟩ 5).count = 5 := by
  have h := rand_digit_range_count 8 3 true 0 (2 ^ 32 - 1) (by norm_num)
    (by norm_num) (fun _ => by norm_num)
  exact ⟨h.1 ⟨0⟩ 12345, h.2 (fun _ => 7) 5⟩

/-! ## i-rand: `i_rand.hpp`

An `i_rand` holds `_a`, `_d`, `_l` with current range `_a + [0, _d)` and
`_d = b^_l`.  `_a` and `_d` are C++ `int`s, modelled as `ℤ`; `_l` is only
ever `0`, incremented, or decremented when positive, so it is modelled
as `ℕ`. -/

/-- The fields `_a`, `_d`, `_l` of an `i_rand`. -/
structure IRand where
  a : ℤ
  d : ℤ
  l : ℕ
  deriving Repr, DecidableEq

/-- `i_rand::min()`. -/
def IRand.min (st : IRand) : ℤ := st.a

/-- `i_rand::max()`: `_a + _d - 1`. -/
def IRand.max (st : IRand) : ℤ := st.a + st.d - 1

/-- `i_rand::negate()`: `_a = -max()`; `_d`, `_l` untouched.  A pure
function of the state: it does not read the digit stream. -/
def IRand.negate (st : IRand) : IRand := ⟨-st.max, st.d, st.l⟩

/-- `i_rand::add(c)`: `_a += c`; `_d`, `_l` untouched.  A pure function of
the state: it does not read the digit stream. -/
def IRand.add (st : IRand) (c : ℤ) : IRand := ⟨st.a + c, st.d, st.l⟩

/-- `i_rand::refine(g)`: if `_l > 0`, decrement `_l`, divide `_d` by `b`,
and shift `_a` by a fresh digit times the new `_d`; otherwise do
nothing. -/
def IRand.refine (b : ℤ) (σ : ℕ → ℕ) (st : IRand) (pos : ℕ) : IRand × ℕ :=
  if 0 < st.l then
    (⟨st.a + (σ pos : ℤ) * st.d.tdiv b, st.d.tdiv b, st.l - 1⟩, pos + 1)
  else (st, pos)

/-- The inner loop of `i_rand::init` (the `for (long long w = v, a = c,
d = 1;;)` loop): plays out Lumbroso's algorithm without drawing digits.
Returns `some (some (a, d, l))` on `return` (acceptance), `some none` on
`break` (another digit must be drawn), `none` when out of fuel. -/
def irandInner (b m : ℤ) : ℤ → ℤ → ℤ → ℕ → ℕ → Option (Option (ℤ × ℤ × ℕ))
  | _, _, _, _, 0 => none
  | w, a, d, l, fuel + 1 =>
    if m ≤ w then
      if m ≤ w - (Int.tdiv a m) * m then
        if a - (Int.tdiv a m) * m + d ≤ m then
          some (some (a - (Int.tdiv a m) * m, d, l))
        else some none
      else irandInner b m ((w - (Int.tdiv a m) * m) * b)
        ((a - (Int.tdiv a m) * m) * b) (d * b) (l + 1) fuel
    else irandInner b m (w * b) (a * b) (d * b) (l + 1) fuel

/-- The outer loop of `i_rand::init` (the `for (long long v = 1, c = 0;;)`
loop): each pass replays the inner loop with `_l` reset to `0`; on `break`
it reduces `(v, c)` modulo `m` and draws one more digit into `c`. -/
def irandInitLoop (b m : ℤ) (σ : ℕ → ℕ) : ℤ → ℤ → ℕ → ℕ → ℕ →
    Option (IRand × ℕ)
  | _, _, _, _, 0 => none
  | v, c, pos, fuelI, fuelO + 1 =>
    match irandInner b m v c 1 0 fuelI with
    | none => none
    | some (some (a, d, l)) => some (⟨a, d, l⟩, pos)
    | some none =>
      let j := (Int.tdiv v m) * m
      irandInitLoop b m σ ((v - j) * b) ((c - j) * b + (σ pos : ℤ)) (pos + 1)
        fuelI fuelO

/-- `i_rand::init(g, m)`: `m ≤ 0` is replaced by `1`, then the Lumbroso
loop runs starting from `v = 1`, `c = 0`. -/
def irandInit (b : ℤ) (σ : ℕ → ℕ) (m : ℤ) (pos : ℕ) (fuelI fuelO : ℕ) :
    Option (IRand × ℕ) :=
  irandInitLoop b (if m ≤ 0 then 1 else m) σ 1 0 pos fuelI fuelO

/-- `i_rand::less_than(g, m, n)`: test `*this < m/n`, refining until the
whole range is on one side. -/
def irandLessThan (b : ℤ) (σ : ℕ → ℕ) : IRand → ℕ → ℤ → ℤ → ℕ →
    Option (Bool × IRand × ℕ)
  | _, _, _, _, 0 => none
  | st, pos, m, n, fuel + 1 =>
    if n * st.max < m then some (true, st, pos)
    else if ¬n * st.min < m then some (false, st, pos)
    else
      let r := IRand.refine b σ st pos
      irandLessThan b σ r.1 r.2 m n fuel

/-- `i_rand::less_than_equal(g, m, n)`: `less_than(g, m + 1, n)`. -/
def irandLessThanEqual (b : ℤ) (σ : ℕ → ℕ) (st : IRand) (pos : ℕ)
    (m n : ℤ) (fuel : ℕ) : Option (Bool × IRand × ℕ) :=
  irandLessThan b σ st pos (m + 1) n fuel

/-- `i_rand::greater_than(g, m, n)`: `!less_than_equal(g, m, n)`. -/
def irandGreaterThan (b : ℤ) (σ : ℕ → ℕ) (st : IRand) (pos : ℕ)
    (m n : ℤ) (fuel : ℕ) : Option (Bool × IRand × ℕ) :=
  (irandLessThanEqual b σ st pos m n fuel).map fun r => (!r.1, r.2)

/-- States of an `i_rand` reachable through `init`, `negate`, `add`,
`refine` and the comparison operations (all of `less_than`,
`less_than_equal`, `greater_than`, `greater_than_equal` narrow the state
through `irandLessThan`). -/
inductive IReach (b : ℤ) (σ : ℕ → ℕ) : IRand → Prop where
  | init : ∀ m pos fI fO st pos',
      irandInit b σ m pos fI fO = some (st, pos') → IReach b σ st
  | negate : ∀ st, IReach b σ st → IReach b σ st.negate
  | add : ∀ st c, IReach b σ st → IReach b σ (st.add c)
  | refine : ∀ st pos, IReach b σ st → IReach b σ (IRand.refine b σ st pos).1
  | cmp : ∀ st pos m n fuel r st' pos', IReach b σ st →
      irandLessThan b σ st pos m n fuel = some (r, st', pos') →
      IReach b σ st'

end Exrandom

namespace Exrandom

lemma irandInner_pow (b m : ℤ) :
    ∀ fuel w a d l a' d' l', d = b ^ l →
      irandInner b m w a d l fuel = some (some (a', d', l')) →
      d' = b ^ l' := by
  intro fuel
  induction fuel with
  | zero => intro w a d l a' d' l' _ h; simp [irandInner] at h
  | succ k ih =>
    intro w a d l a' d' l' hd h
    rw [irandInner] at h
    split at h
    · split at h
      · split at h
        · simp at h
          obtain ⟨h1, h2, h3⟩ := h
          subst h1 h2 h3
          exact hd
        · simp at h
      · exact ih _ _ _ _ _ _ _ (by rw [hd, pow_succ]) h
    · exact ih _ _ _ _ _ _ _ (by rw [hd, pow_succ]) h

lemma irandInitLoop_pow (b m : ℤ) (σ : ℕ → ℕ) :
    ∀ fuelO v c pos fuelI st pos',
      irandInitLoop b m σ v c pos fuelI fuelO = some (st, pos') →
      st.d = b ^ st.l := by
  intro fuelO
  induction fuelO with
  | zero => intro v c pos fuelI st pos' h; simp [irandInitLoop] at h
  | succ k ih =>
    intro v c pos fuelI st pos' h
    rw [irandInitLoop] at h
    split at h
    · exact absurd h (by simp)
    · rename_i a d l heq
      simp at h
      obtain ⟨h1, _⟩ := h
      subst h1
      exact irandInner_pow b m fuelI v c 1 0 a d l (by simp) heq
    · exact ih _ _ _ _ _ _ h

lemma irand_refine_pow (b : ℤ) (σ : ℕ → ℕ) (st : IRand) (pos : ℕ)
    (hb : 2 ≤ b) (hd : st.d = b ^ st.l) :
    (IRand.refine b σ st pos).1.d = b ^ (IRand.refine b σ st pos).1.l := by
  unfold IRand.refine
  split
  · rename_i hl
    obtain ⟨k, hk⟩ : ∃ k, st.l = k + 1 := ⟨st.l - 1, by omega⟩
    simp only [hk, hd]
    rw [pow_succ, Int.mul_tdiv_cancel _ (by omega)]
    simp
  · exact hd

lemma irandLessThan_pow (b : ℤ) (σ : ℕ → ℕ) (hb : 2 ≤ b) :
    ∀ fuel st pos m n r st' pos', st.d = b ^ st.l →
      irandLessThan b σ st pos m n fuel = some (r, st', pos') →
      st'.d = b ^ st'.l := by
  intro fuel
  induction fuel with
  | zero => intro st pos m n r st' pos' _ h; simp [irandLessThan] at h
  | succ k ih =>
    intro st pos m n r st' pos' hd h
    rw [irandLessThan] at h
    split at h
    · simp at h; obtain ⟨_, h2, _⟩ := h; subst h2; exact hd
    · split at h
      · simp at h; obtain ⟨_, h2, _⟩ := h; subst h2; exact hd
      · exact ih _ _ _ _ _ _ _ (irand_refine_pow b σ st pos hb hd) h

lemma IReach_pow (b : ℤ) (σ : ℕ → ℕ) (st : IRand) (hb : 2 ≤ b)
    (h : IReach b σ st) : st.d = b ^ st.l := by
  induction h with
  | init m pos fI fO st pos' h =>
    exact irandInitLoop_pow b _ σ fO 1 0 pos fI st pos' h
  | negate st _ ih => exact ih
  | add st c _ ih => exact ih
  | refine st pos _ ih => exact irand_refine_pow b σ st pos hb ih
  | cmp st pos m n fuel r st' pos' _ heq ih =>
    exact irandLessThan_pow b σ hb fuel st pos m n r st' pos' ih heq

/-- C6 (amended): for every i-rand state reachable through `init`,
`refine`, `negate`, `add`, and the comparison operations, `d = b^ℓ` and
`min ≤ max` hold; a call to `refine` from a state with `ℓ > 0` decreases
`ℓ` by `1` and `d` by a factor of `b`, while from a state with `ℓ = 0` it
leaves the state unchanged and draws nothing. -/
theorem irand_invariant (b : ℤ) (σ : ℕ → ℕ) (st : IRand) (hb : 2 ≤ b)
    (h : IReach b σ st) :
    (st.d = b ^ st.l ∧ st.min ≤ st.max) ∧
    ∀ pos,
      (0 < st.l → (IRand.refine b σ st pos).1.l = st.l - 1 ∧
        (IRand.refine b σ st pos).1.d * b = st.d) ∧
      (st.l = 0 → IRand.refine b σ st pos = (st, pos)) := by
  have hd := IReach_pow b σ st hb h
  have hpos : (0 : ℤ) < b ^ st.l := pow_pos (by omega) _
  refine ⟨⟨hd, ?_⟩, fun pos => ⟨fun hl => ?_, fun hl => ?_⟩⟩
  · simp only [IRand.min, IRand.max]
    omega
  · obtain ⟨k, hk⟩ : ∃ k, st.l = k + 1 := ⟨st.l - 1, by omega⟩
    unfold IRand.refine
    rw [if_pos hl]
    simp only [hk, hd]
    rw [pow_succ, Int.mul_tdiv_cancel _ (by omega)]
    constructor
    · simp
    · simp
  · unfold IRand.refine
    rw [if_neg (by omega)]

/-- Witness for `irand_invariant`: the state produced by
`init(g, 9)` at base 2 on the alternating digit stream (this is the
`[2,6)` range of the doc-comment example in `i_rand.hpp`). -/
theorem irand_invariant_wit :
    (irandInit 2 (fun i => if i % 2 = 0 then 1 else 0) 9 0 20 20 =
      some (⟨2, 4, 2⟩, 3)) ∧
    ((IRand.mk 2 4 2).d = 2 ^ (IRand.mk 2 4 2).l ∧
      (IRand.mk 2 4 2).min ≤ (IRand.mk 2 4 2).max) ∧
    ∀ pos,
      (0 < (IRand.mk 2 4 2).l →
        (IRand.refine 2 (fun i => if i % 2 = 0 then 1 else 0)
            ⟨2, 4, 2⟩ pos).1.l = (IRand.mk 2 4 2).l - 1 ∧
        (IRand.refine 2 (fun i => if i % 2 = 0 then 1 else 0)
            ⟨2, 4, 2⟩ pos).1.d * 2 = (IRand.mk 2 4 2).d) ∧
      ((IRand.mk 2 4 2).l = 0 →
        IRand.refine 2 (fun i => if i % 2 = 0 then 1 else 0) ⟨2, 4, 2⟩ pos =
          (⟨2, 4, 2⟩, pos)) := by
  have hinit : irandInit 2 (fun i => if i % 2 = 0 then 1 else 0) 9 0 20 20 =
      some (⟨2, 4, 2⟩, 3) := by decide
  exact ⟨hinit, irand_invariant 2 (fun i => if i % 2 = 0 then 1 else 0)
    ⟨2, 4, 2⟩ (by norm_num) (IReach.init 9 0 20 20 _ 3 hinit)⟩

/-- C6 counterexample: the claim asserts that after every call to
`refine`, `ℓ` decreases by 1 and `d` by a factor of `b`.  The state
`⟨0, 1, 0⟩` (with `ℓ = 0`) is reachable via `init(g, 1)`, and `refine`
leaves it entirely unchanged, so `ℓ` does not decrease. -/
theorem irand_refine_noop_cex :
    IReach 2 (fun _ => 0) ⟨0, 1, 0⟩ ∧
    IRand.refine 2 (fun _ => 0) ⟨0, 1, 0⟩ 0 = (⟨0, 1, 0⟩, 0) := by
  constructor
  · exact IReach.init 1 0 1 1 ⟨0, 1, 0⟩ 0 (by decide)
  · decide

/-- C9: `i_rand::init(g, m)` with `m ≤ 0` behaves exactly as
`init(g, 1)`: it draws no digits (the stream position is unchanged) and
leaves the i-rand fixed at the value `0`: `min = max = 0` (`a = 0`,
`d = 1`) with entropy `ℓ = 0`. -/
theorem irand_init_nonpos (b : ℤ) (σ : ℕ → ℕ) (m : ℤ) (pos : ℕ)
    (fuelI fuelO : ℕ) (hm : m ≤ 0) (hI : 1 ≤ fuelI) (hO : 1 ≤ fuelO) :
    irandInit b σ m pos fuelI fuelO = irandInit b σ 1 pos fuelI fuelO ∧
    irandInit b σ m pos fuelI fuelO = some (⟨0, 1, 0⟩, pos) := by
  have h1 : irandInit b σ m pos fuelI fuelO =
      irandInit b σ 1 pos fuelI fuelO := by
    unfold irandInit
    rw [if_pos hm, if_neg (by norm_num)]
  refine ⟨h1, ?_⟩
  rw [h1]
  obtain ⟨i, hi⟩ : ∃ i, fuelI = i + 1 := ⟨fuelI - 1, by omega⟩
  obtain ⟨o, ho⟩ : ∃ o, fuelO = o + 1 := ⟨fuelO - 1, by omega⟩
  subst hi ho
  have hin : irandInner b 1 1 0 1 0 (i + 1) = some (some (0, 1, 0)) := by
    rw [irandInner]
    norm_num
  unfold irandInit
  rw [if_neg (by norm_num), irandInitLoop, hin]

/-- Witness for `irand_init_nonpos`: `init(g, -5)` at base 2. -/
theorem irand_init_nonpos_wit :
    irandInit 2 (fun _ => 1) (-5) 7 3 3 = irandInit 2 (fun _ => 1) 1 7 3 3 ∧
    irandInit 2 (fun _ => 1) (-5) 7 3 3 = some (⟨0, 1, 0⟩, 7) :=
  irand_init_nonpos 2 (fun _ => 1) (-5) 7 3 3 (by norm_num) (by norm_num)
    (by norm_num)

/-- C10: `negate()` maps the range `[min, max]` to `[-max, -min]` and
`add(c)` maps it to `[min + c, max + c]`; both are pure functions of the
state (they take no stream argument, so they draw no digits), leave `d`
and `ℓ` unchanged, and therefore preserve the invariant `d = b^ℓ`. -/
theorem irand_negate_add (b : ℤ) (st : IRand) (c : ℤ) :
    (st.negate.min = -st.max ∧ st.negate.max = -st.min ∧
      st.negate.d = st.d ∧ st.negate.l = st.l) ∧
    ((st.add c).min = st.min + c ∧ (st.add c).max = st.max + c ∧
      (st.add c).d = st.d ∧ (st.add c).l = st.l) ∧
    (st.d = b ^ st.l →
      st.negate.d = b ^ st.negate.l ∧ (st.add c).d = b ^ (st.add c).l) := by
  refine ⟨⟨rfl, ?_, rfl, rfl⟩, ⟨?_, ?_, rfl, rfl⟩, fun h => ⟨h, h⟩⟩
  · simp only [IRand.negate, IRand.max, IRand.min]
    ring
  · simp only [IRand.add, IRand.min]
  · simp only [IRand.add, IRand.max]
    ring

/-! ## u-rand: `u_rand.hpp`

A `u_rand` holds a sign `_s ∈ {+1, -1}`, an unsigned integer part `_n`,
and the vector `_d` of fractional digits, representing
`s (n + Σ_k d_k b^(-k-1) + b^(-K) U)` with `U` an unrealized uniform
deviate.  The digit generator reference `_D` is the shared stream. -/

/-- The fields `_s`, `_n`, `_d` of a `u_rand`. -/
structure URand where
  s : ℤ
  n : ℕ
  d : List ℕ
  deriving Repr, DecidableEq

/-- `u_rand::init()`: `_s = 1`, `_n = 0`, `_d.clear()`. -/
def URand.init : URand := ⟨1, 0, []⟩

/-- The digit-materializing loop of `u_rand::digit(g, k)`:
`for (size_t i = ndigits(); i <= k; ++i) _d.push_back(_D(g))`. -/
def URand.extendTo (σ : ℕ → ℕ) (x : URand) (pos k : ℕ) : URand × ℕ :=
  if x.d.length ≤ k then
    (⟨x.s, x.n,
        x.d ++ (List.range (k + 1 - x.d.length)).map fun i => σ (pos + i)⟩,
      pos + (k + 1 - x.d.length))
  else (x, pos)

/-- `u_rand::digit(g, k)`: materialize digits `0..k` as needed and return
the `k`-th digit together with the new state and stream position. -/
def URand.digit (σ : ℕ → ℕ) (x : URand) (pos k : ℕ) : ℕ × URand × ℕ :=
  ((URand.extendTo σ x pos k).1.d.getD k 0, (URand.extendTo σ x pos k).1,
    (URand.extendTo σ x pos k).2)

/-- `u_rand::truncatep(g, k)`: look at the `k`-th (and subsequent) digits
to decide whether the result rounds toward zero.  `bm1` is `base - 1`, so
the source's thresholds `(bm1 - 1U)/2U` and `bm1/2U` are `(b-2)/2` and
`(b-1)/2`. -/
def truncatepAux (b : ℕ) (σ : ℕ → ℕ) : URand → ℕ → ℕ → ℕ →
    Option (Bool × URand × ℕ)
  | _, _, _, 0 => none
  | x, pos, k, fuel + 1 =>
    if (URand.digit σ x pos k).1 ≤ (b - 2) / 2 then
      some (true, (URand.digit σ x pos k).2.1, (URand.digit σ x pos k).2.2)
    else if (b - 1) / 2 < (URand.digit σ x pos k).1 then
      some (false, (URand.digit σ x pos k).2.1, (URand.digit σ x pos k).2.2)
    else
      truncatepAux b σ (URand.digit σ x pos k).2.1
        (URand.digit σ x pos k).2.2 (k + 1) fuel

end Exrandom

namespace Exrandom

/-- C2 (amended): `truncatep(g, k)` returns `true` if `d_k ≤ ⌊(b-2)/2⌋`,
`false` if `d_k > ⌊(b-1)/2⌋`, and otherwise recurses on `d_{k+1}`; this
tie case can arise only when the base `b` is odd and `d_k = (b-1)/2`
exactly (for even `b` a single digit always decides). -/
theorem truncatep_step_tie (b : ℕ) (σ : ℕ → ℕ) (x : URand) (pos k fuel : ℕ)
    (hb : 2 ≤ b) :
    (truncatepAux b σ x pos k (fuel + 1) =
      if (URand.digit σ x pos k).1 ≤ (b - 2) / 2 then
        some (true, (URand.digit σ x pos k).2.1, (URand.digit σ x pos k).2.2)
      else if (b - 1) / 2 < (URand.digit σ x pos k).1 then
        some (false, (URand.digit σ x pos k).2.1,
          (URand.digit σ x pos k).2.2)
      else
        truncatepAux b σ (URand.digit σ x pos k).2.1
          (URand.digit σ x pos k).2.2 (k + 1) fuel) ∧
    (((b - 2) / 2 < (URand.digit σ x pos k).1 ∧
        (URand.digit σ x pos k).1 ≤ (b - 1) / 2) ↔
      (b % 2 = 1 ∧ 2 * (URand.digit σ x pos k).1 + 1 = b)) := by
  constructor
  · rw [truncatepAux]
  · omega

/-- Witness for `truncatep_step_tie` at base 4, first digit 2: the digit
exceeds `⌊(b-1)/2⌋ = 1`, so `truncatep` decides `false` at once. -/
theorem truncatep_step_tie_wit :
    (truncatepAux 4 (fun _ => 2) URand.init 0 0 (0 + 1) =
      if (URand.digit (fun _ => 2) URand.init 0 0).1 ≤ (4 - 2) / 2 then
        some (true, (URand.digit (fun _ => 2) URand.init 0 0).2.1,
          (URand.digit (fun _ => 2) URand.init 0 0).2.2)
      else if (4 - 1) / 2 < (URand.digit (fun _ => 2) URand.init 0 0).1 then
        some (false, (URand.digit (fun _ => 2) URand.init 0 0).2.1,
          (URand.digit (fun _ => 2) URand.init 0 0).2.2)
      else
        truncatepAux 4 (fun _ => 2) (URand.digit (fun _ => 2) URand.init 0 0).2.1
          (URand.digit (fun _ => 2) URand.init 0 0).2.2 (0 + 1) 0) ∧
    (((4 - 2) / 2 < (URand.digit (fun _ => 2) URand.init 0 0).1 ∧
        (URand.digit (fun _ => 2) URand.init 0 0).1 ≤ (4 - 1) / 2) ↔
      (4 % 2 = 1 ∧ 2 * (URand.digit (fun _ => 2) URand.init 0 0).1 + 1 = 4)) :=
  truncatep_step_tie 4 (fun _ => 2) URand.init 0 0 0 (by norm_num)

/-- C2 counterexample: the claim says the tie (recursion) case can arise
only when `b` is even and `d_k = b/2`.  At the odd base `b = 3` with
`d_0 = 1`, `truncatep` recurses: with fuel for one digit it is still
undecided (`none`), and it consults `d_1` (two digits are consumed before
deciding `true`). -/
theorem truncatep_tie_cex :
    3 % 2 = 1 ∧
    truncatepAux 3 (fun _ => 1) URand.init 0 0 1 = none ∧
    truncatepAux 3 (fun i => if i = 0 then 1 else 0) URand.init 0 0 2 =
      some (true, ⟨1, 0, [1, 0]⟩, 2) := by
  refine ⟨rfl, ?_, ?_⟩ <;> decide

/-- Witness for `irand_negate_add` at a concrete state. -/
theorem irand_negate_add_wit :
    ((IRand.mk 3 4 2).negate.min = -(IRand.mk 3 4 2).max ∧
      (IRand.mk 3 4 2).negate.max = -(IRand.mk 3 4 2).min ∧
      (IRand.mk 3 4 2).negate.d = (IRand.mk 3 4 2).d ∧
      (IRand.mk 3 4 2).negate.l = (IRand.mk 3 4 2).l) ∧
    (((IRand.mk 3 4 2).add 5).min = (IRand.mk 3 4 2).min + 5 ∧
      ((IRand.mk 3 4 2).add 5).max = (IRand.mk 3 4 2).max + 5 ∧
      ((IRand.mk 3 4 2).add 5).d = (IRand.mk 3 4 2).d ∧
      ((IRand.mk 3 4 2).add 5).l = (IRand.mk 3 4 2).l) ∧
    ((IRand.mk 3 4 2).d = 2 ^ (IRand.mk 3 4 2).l →
      (IRand.mk 3 4 2).negate.d = 2 ^ (IRand.mk 3 4 2).negate.l ∧
      ((IRand.mk 3 4 2).add 5).d = 2 ^ ((IRand.mk 3 4 2).add 5).l) :=
  irand_negate_add 2 ⟨3, 4, 2⟩ 5

end Exrandom

namespace Exrandom

/-! ## Discrete normal parameters: `discrete_normal_dist.hpp`

`int` is 32 bits and `long long` 64 bits, so the bounds used by the
constructor's guards are `intMin = -2^31`, `intMax = 2^31 - 1`,
`llMax = 2^63 - 1`. -/

/-- `std::numeric_limits<int>::min()`. -/
def intMin : ℤ := -(2 ^ 31)

/-- `std::numeric_limits<int>::max()`. -/
def intMax : ℤ := 2 ^ 31 - 1

/-- `std::numeric_limits<long long>::max()`. -/
def llMax : ℤ := 2 ^ 63 - 1

/-- The loop of `discrete_normal_dist::gcd` (Knuth, TAOCP 4.5.2,
Algorithm A): `while (v > 0) { r = u % v; u = v; v = r; }`, on the
absolute values.  `fuel` is structural; `v + 1` steps always suffice. -/
def gcdAux : ℕ → ℕ → ℕ → ℕ
  | 0, u, _ => u
  | fuel + 1, u, v => if v = 0 then u else gcdAux fuel v (u % v)

/-- `discrete_normal_dist::gcd(u, v)`: Euclid on `|u|`, `|v|`. -/
def cgcd (u v : ℤ) : ℤ := (gcdAux (v.natAbs + 1) u.natAbs v.natAbs : ℤ)

/-- `discrete_normal_dist::iceil(n, d)`: `ceil(n/d)` for `d > 0`, via
`k = n / d; k + (k * d < n ? 1 : 0)`. -/
def iceil (n d : ℤ) : ℤ :=
  n.tdiv d + (if (n.tdiv d) * d < n then 1 else 0)

/-- The fields of `discrete_normal_dist::param_type`. -/
structure ParamType where
  mu_num : ℤ
  mu_den : ℤ
  sigma_num : ℤ
  sigma_den : ℤ
  deriving Repr, DecidableEq

/-- `param_type::param_init`: validate and store in lowest terms.  The
C++ throws `std::runtime_error("discrete_normal_dist: need sigma > 0")`
on invalid parameters, modelled by `none`. -/
def param_init (mu_num mu_den sigma_num sigma_den : ℤ) : Option ParamType :=
  if ¬(sigma_num > 0 ∧ sigma_den > 0 ∧ mu_den > 0 ∧ mu_num > intMin) then
    none
  else
    some ⟨mu_num.tdiv (cgcd mu_num mu_den),
          mu_den.tdiv (cgcd mu_num mu_den),
          sigma_num.tdiv (cgcd sigma_num sigma_den),
          sigma_den.tdiv (cgcd sigma_num sigma_den)⟩

/-- `operator<<` on a `param_type`: four decimal integers
`mu_num mu_den sigma_num sigma_den`, modelled as the emitted token
list. -/
def paramWrite (p : ParamType) : List ℤ :=
  [p.mu_num, p.mu_den, p.sigma_num, p.sigma_den]

/-- `operator>>` on a `param_type`: read four integers and call
`param_init` on them; the rest of the stream is returned. -/
def paramRead (ts : List ℤ) : Option (ParamType × List ℤ) :=
  match ts with
  | a :: c :: e :: f :: r => (param_init a c e f).map fun p => (p, r)
  | _ => none

end Exrandom

namespace Exrandom

lemma gcdAux_eq (fuel u v : ℕ) (h : v < fuel) : gcdAux fuel u v = Nat.gcd v u := by
  induction fuel generalizing u v with
  | zero => omega
  | succ k ih =>
    rw [gcdAux]
    rcases Nat.eq_zero_or_pos v with hv | hv
    · subst hv; simp
    · rw [if_neg (by omega)]
      rw [ih v (u % v) (by have := Nat.mod_lt u hv; omega)]
      rw [Nat.gcd_rec v u]

lemma cgcd_eq (u v : ℤ) : cgcd u v = (Int.gcd u v : ℤ) := by
  unfold cgcd
  rw [gcdAux_eq _ _ _ (Nat.lt_succ_self _), Nat.gcd_comm]
  rfl

lemma cgcd_pos_of_right_pos (u v : ℤ) (hv : 0 < v) : 0 < cgcd u v := by
  rw [cgcd_eq]
  have : Int.gcd u v ≠ 0 := by
    intro h
    rw [Int.gcd_eq_zero_iff] at h
    omega
  omega

lemma cgcd_pos_of_left_pos (u v : ℤ) (hu : 0 < u) : 0 < cgcd u v := by
  rw [cgcd_eq]
  have : Int.gcd u v ≠ 0 := by
    intro h
    rw [Int.gcd_eq_zero_iff] at h
    omega
  omega

lemma cgcd_dvd_left (u v : ℤ) : cgcd u v ∣ u := by
  rw [cgcd_eq]; exact Int.gcd_dvd_left

lemma cgcd_dvd_right (u v : ℤ) : cgcd u v ∣ v := by
  rw [cgcd_eq]; exact Int.gcd_dvd_right

lemma tdiv_gcd_pos (a g : ℤ) (ha : 0 < a) (hg : 0 < g) (hd : g ∣ a) :
    0 < a.tdiv g := by
  rw [Int.tdiv_eq_ediv_of_dvd hd]
  exact Int.ediv_pos_of_pos_of_dvd ha (by omega) hd

/-- The fields of a successfully constructed `param_type` are in lowest
terms with positive denominators, positive `σ`, and `μ_num` above
`intMin`. -/
lemma param_init_props (m1 m2 m3 m4 : ℤ) (p : ParamType)
    (h : param_init m1 m2 m3 m4 = some p) :
    0 < p.mu_den ∧ 0 < p.sigma_num ∧ 0 < p.sigma_den ∧ intMin < p.mu_num ∧
    cgcd p.mu_num p.mu_den = 1 ∧ cgcd p.sigma_num p.sigma_den = 1 := by
  unfold param_init at h
  split at h
  · exact absurd h (by simp)
  · rename_i hv
    push_neg at hv
    obtain ⟨h3, h4, h2, h1⟩ := hv
    simp only [Option.some_inj] at h
    subst h
    have g1 := cgcd_pos_of_right_pos m1 m2 h2
    have g2 := cgcd_pos_of_left_pos m3 m4 h3
    have d1 := cgcd_dvd_left m1 m2
    have d2 := cgcd_dvd_right m1 m2
    have d3 := cgcd_dvd_left m3 m4
    have d4 := cgcd_dvd_right m3 m4
    have hq1 : m1.tdiv (cgcd m1 m2) * cgcd m1 m2 = m1 :=
      Int.tdiv_mul_cancel d1
    have hq2 : m2.tdiv (cgcd m1 m2) * cgcd m1 m2 = m2 :=
      Int.tdiv_mul_cancel d2
    refine ⟨tdiv_gcd_pos _ _ h2 g1 d2, tdiv_gcd_pos _ _ h3 g2 d3,
      tdiv_gcd_pos _ _ h4 g2 d4, ?_, ?_, ?_⟩
    · show intMin < m1.tdiv (cgcd m1 m2)
      rcases le_or_lt 0 (m1.tdiv (cgcd m1 m2)) with hql | hql
      · have : intMin < 0 := by norm_num [intMin]
        omega
      · nlinarith [hq1]
    · show cgcd (m1.tdiv (cgcd m1 m2)) (m2.tdiv (cgcd m1 m2)) = 1
      rw [cgcd_eq, Int.tdiv_eq_ediv_of_dvd d1, Int.tdiv_eq_ediv_of_dvd d2,
        cgcd_eq m1 m2]
      exact_mod_cast Int.gcd_div_gcd_div_gcd
        (by rw [cgcd_eq] at g1; exact_mod_cast g1)
    · show cgcd (m3.tdiv (cgcd m3 m4)) (m4.tdiv (cgcd m3 m4)) = 1
      rw [cgcd_eq, Int.tdiv_eq_ediv_of_dvd d3, Int.tdiv_eq_ediv_of_dvd d4,
        cgcd_eq m3 m4]
      exact_mod_cast Int.gcd_div_gcd_div_gcd
        (by rw [cgcd_eq] at g2; exact_mod_cast g2)

/-- C8: writing a valid `param_type` (stored in lowest terms with
positive denominators) as four whitespace-separated decimal integers and
reading it back yields a `param_type` equal to it under `operator==`
(field-wise equality), leaving the rest of the stream untouched. -/
theorem param_roundtrip (m1 m2 m3 m4 : ℤ) (p : ParamType)
    (h : param_init m1 m2 m3 m4 = some p) (r : List ℤ) :
    paramRead (paramWrite p ++ r) = some (p, r) := by
  obtain ⟨h2, h3, h4, h1, hg1, hg2⟩ := param_init_props m1 m2 m3 m4 p h
  have : param_init p.mu_num p.mu_den p.sigma_num p.sigma_den = some p := by
    unfold param_init
    rw [if_neg (by push_neg; exact ⟨h3, h4, h2, h1⟩)]
    rw [hg1, hg2]
    simp [Int.tdiv_one]
  simp only [paramWrite, paramRead, List.cons_append, List.nil_append, this,
    Option.map_some']

/-- Witness for `param_roundtrip`: μ = 4/6 = 2/3, σ = 3/2. -/
theorem param_roundtrip_wit :
    paramRead (paramWrite ⟨2, 3, 3, 2⟩ ++ [7]) = some (⟨2, 3, 3, 2⟩, [7]) := by
  refine param_roundtrip 4 6 3 2 ⟨2, 3, 3, 2⟩ ?_ [7]
  decide

end Exrandom

namespace Exrandom

/-- `discrete_normal_dist::init()`: compute the derived integers
`_imu, _isig, _sig, _mu, _d` and run the constructor-time checks.  Each
`throw std::runtime_error(...)` is modelled by `none`; `kmax = 50 + 1`.
The structure fields are `imu = _imu`, `isig = _isig`, `sig = _sig`,
`mu = _mu`, `d = _d`. -/
structure DParams where
  imu : ℤ
  isig : ℤ
  sig : ℤ
  mu : ℤ
  d : ℤ
  deriving Repr, DecidableEq

/-- The body of `discrete_normal_dist::init()` run on a validated
`param_type`. -/
def dnormInit (b : ℤ) (p : ParamType) : Option DParams :=
  if ¬(p.mu_den.tdiv (cgcd p.sigma_den p.mu_den) ≤ llMax.tdiv p.sigma_num ∧
      |p.mu_num - p.mu_num.tdiv p.mu_den * p.mu_den| ≤
        llMax.tdiv (p.sigma_den.tdiv (cgcd p.sigma_den p.mu_den)) ∧
      p.mu_den.tdiv (cgcd p.sigma_den p.mu_den) ≤ llMax.tdiv p.sigma_den)
  then none
  else if ¬(iceil p.sigma_num p.sigma_den ≤
      llMax.tdiv (p.sigma_den * (p.mu_den.tdiv (cgcd p.sigma_den p.mu_den))))
  then none
  else if ¬(iceil p.sigma_num p.sigma_den ≤ intMax.tdiv 51) then none
  else if ¬(|p.mu_num.tdiv p.mu_den| ≤
      intMax - iceil p.sigma_num p.sigma_den * 51) then none
  else if ¬(max 2 (p.sigma_num * (p.mu_den.tdiv (cgcd p.sigma_den p.mu_den)))
      ≤ llMax.tdiv (b * 51)) then none
  else some ⟨p.mu_num.tdiv p.mu_den,
    iceil p.sigma_num p.sigma_den,
    p.sigma_num * (p.mu_den.tdiv (cgcd p.sigma_den p.mu_den)),
    (p.mu_num - p.mu_num.tdiv p.mu_den * p.mu_den) *
      (p.sigma_den.tdiv (cgcd p.sigma_den p.mu_den)),
    p.sigma_den * (p.mu_den.tdiv (cgcd p.sigma_den p.mu_den))⟩

/-- Construction of a `discrete_normal_dist` from the four raw integer
parameters: `param_type` validation and reduction, then `init()`. -/
def dnormConstruct (b m1 m2 m3 m4 : ℤ) : Option DParams :=
  (param_init m1 m2 m3 m4).bind (dnormInit b)

/-- The overflow guards of `discrete_normal_dist::init()`, stated in the
multiplied-out "fits in a 64-bit (resp. 32-bit) signed integer" form, for
a validated `param_type` `p`.  The last conjunct is the source comment's
`max(2, _sig) * base * kmax` requirement with `kmax = 51`. -/
def guardsHold (b : ℤ) (p : ParamType) : Prop :=
  p.mu_den.tdiv (cgcd p.sigma_den p.mu_den) * p.sigma_num ≤ llMax ∧
  |p.mu_num - p.mu_num.tdiv p.mu_den * p.mu_den| *
    (p.sigma_den.tdiv (cgcd p.sigma_den p.mu_den)) ≤ llMax ∧
  p.mu_den.tdiv (cgcd p.sigma_den p.mu_den) * p.sigma_den ≤ llMax ∧
  iceil p.sigma_num p.sigma_den *
    (p.sigma_den * (p.mu_den.tdiv (cgcd p.sigma_den p.mu_den))) ≤ llMax ∧
  iceil p.sigma_num p.sigma_den * 51 ≤ intMax ∧
  |p.mu_num.tdiv p.mu_den| + iceil p.sigma_num p.sigma_den * 51 ≤ intMax ∧
  max 2 (p.sigma_num * (p.mu_den.tdiv (cgcd p.sigma_den p.mu_den))) *
    (b * 51) ≤ llMax

end Exrandom

namespace Exrandom

lemma le_tdiv_iff_mul_le (a M y : ℤ) (hM : 0 ≤ M) (hy : 0 < y) :
    a ≤ M.tdiv y ↔ a * y ≤ M := by
  rw [Int.tdiv_eq_ediv hM (by omega)]
  exact Int.le_ediv_iff_mul_le hy

set_option maxHeartbeats 2000000 in
/-- C4: construction of a discrete normal sampler fails exactly when
`σ_num ≤ 0`, `σ_den ≤ 0`, `μ_den ≤ 0`, `μ_num` is the minimum
representable `int`, or one of the precomputed overflow guards (stated
in "fits in a 64-bit / 32-bit signed integer" form, in particular
`max(2, _sig) * b * 51 ≤ 2^63 - 1`) does not hold for the reduced
parameters. -/
theorem dnorm_construct_fail_iff (b m1 m2 m3 m4 : ℤ) (hb : 2 ≤ b) :
    dnormConstruct b m1 m2 m3 m4 = none ↔
      (¬(m3 > 0 ∧ m4 > 0 ∧ m2 > 0 ∧ m1 > intMin) ∨
        ∃ p, param_init m1 m2 m3 m4 = some p ∧ ¬guardsHold b p) := by
  unfold dnormConstruct
  rcases hp : param_init m1 m2 m3 m4 with _ | p
  · have hprim : ¬(m3 > 0 ∧ m4 > 0 ∧ m2 > 0 ∧ m1 > intMin) := by
      intro hc
      unfold param_init at hp
      rw [if_neg (not_not_intro hc)] at hp
      exact absurd hp (by simp)
    simp only [Option.none_bind]
    exact ⟨fun _ => Or.inl hprim, fun _ => trivial⟩
  · have hprim : m3 > 0 ∧ m4 > 0 ∧ m2 > 0 ∧ m1 > intMin := by
      unfold param_init at hp
      split at hp
      · exact absurd hp (by simp)
      · rename_i hv; push_neg at hv; exact hv
    obtain ⟨hmd, hsn, hsd, _, _, _⟩ := param_init_props m1 m2 m3 m4 p hp
    have hex : (∃ q, (some p : Option ParamType) = some q ∧
        ¬guardsHold b q) ↔ ¬guardsHold b p := by
      constructor
      · rintro ⟨q, hq, hng⟩
        rw [Option.some_inj] at hq
        rwa [hq]
      · exact fun hq => ⟨p, rfl, hq⟩
    have hg : 0 < cgcd p.sigma_den p.mu_den := cgcd_pos_of_left_pos _ _ hsd
    have hdvd1 : cgcd p.sigma_den p.mu_den ∣ p.sigma_den := cgcd_dvd_left _ _
    have hdvd2 : cgcd p.sigma_den p.mu_den ∣ p.mu_den := cgcd_dvd_right _ _
    have hmdl : 0 < p.mu_den.tdiv (cgcd p.sigma_den p.mu_den) :=
      tdiv_gcd_pos _ _ hmd hg hdvd2
    have hsdl : 0 < p.sigma_den.tdiv (cgcd p.sigma_den p.mu_den) :=
      tdiv_gcd_pos _ _ hsd hg hdvd1
    have hM : (0 : ℤ) ≤ llMax := by norm_num [llMax]
    have hMi : (0 : ℤ) ≤ intMax := by norm_num [intMax]
    have e1 := le_tdiv_iff_mul_le
      (p.mu_den.tdiv (cgcd p.sigma_den p.mu_den)) llMax p.sigma_num hM hsn
    have e2 := le_tdiv_iff_mul_le
      (|p.mu_num - p.mu_num.tdiv p.mu_den * p.mu_den|) llMax
      (p.sigma_den.tdiv (cgcd p.sigma_den p.mu_den)) hM hsdl
    have e3 := le_tdiv_iff_mul_le
      (p.mu_den.tdiv (cgcd p.sigma_den p.mu_den)) llMax p.sigma_den hM hsd
    have e4 := le_tdiv_iff_mul_le (iceil p.sigma_num p.sigma_den) llMax
      (p.sigma_den * (p.mu_den.tdiv (cgcd p.sigma_den p.mu_den))) hM
      (mul_pos hsd hmdl)
    have e5 := le_tdiv_iff_mul_le (iceil p.sigma_num p.sigma_den) intMax 51
      hMi (by norm_num)
    have e6 : (|p.mu_num.tdiv p.mu_den| ≤
        intMax - iceil p.sigma_num p.sigma_den * 51) ↔
        (|p.mu_num.tdiv p.mu_den| + iceil p.sigma_num p.sigma_den * 51 ≤
          intMax) := le_sub_iff_add_le
    have e7 := le_tdiv_iff_mul_le
      (max 2 (p.sigma_num * (p.mu_den.tdiv (cgcd p.sigma_den p.mu_den))))
      llMax (b * 51) hM (by omega)
    have hmain : dnormInit b p = none ↔ ¬guardsHold b p := by
      have hGC : guardsHold b p ↔
          ((p.mu_den.tdiv (cgcd p.sigma_den p.mu_den) ≤
              llMax.tdiv p.sigma_num ∧
            |p.mu_num - p.mu_num.tdiv p.mu_den * p.mu_den| ≤
              llMax.tdiv (p.sigma_den.tdiv (cgcd p.sigma_den p.mu_den)) ∧
            p.mu_den.tdiv (cgcd p.sigma_den p.mu_den) ≤
              llMax.tdiv p.sigma_den) ∧
          iceil p.sigma_num p.sigma_den ≤
            llMax.tdiv
              (p.sigma_den * (p.mu_den.tdiv (cgcd p.sigma_den p.mu_den))) ∧
          iceil p.sigma_num p.sigma_den ≤ intMax.tdiv 51 ∧
          |p.mu_num.tdiv p.mu_den| ≤
            intMax - iceil p.sigma_num p.sigma_den * 51 ∧
          max 2 (p.sigma_num *
              (p.mu_den.tdiv (cgcd p.sigma_den p.mu_den))) ≤
            llMax.tdiv (b * 51)) := by
        unfold guardsHold
        rw [e1, e2, e3, e4, e5, e6, e7]
        exact ⟨fun ⟨a1, a2, a3, a4, a5, a6, a7⟩ =>
            ⟨⟨a1, a2, a3⟩, a4, a5, a6, a7⟩,
          fun ⟨⟨a1, a2, a3⟩, a4, a5, a6, a7⟩ =>
            ⟨a1, a2, a3, a4, a5, a6, a7⟩⟩
      rw [hGC]
      unfold dnormInit
      constructor
      · intro h0 hC
        obtain ⟨⟨c1, c2, c3⟩, c4, c5, c6, c7⟩ := hC
        rw [if_neg (not_not_intro ⟨c1, c2, c3⟩), if_neg (not_not_intro c4),
          if_neg (not_not_intro c5), if_neg (not_not_intro c6),
          if_neg (not_not_intro c7)] at h0
        exact absurd h0 (by simp)
      · intro hnc
        by_cases k1 : p.mu_den.tdiv (cgcd p.sigma_den p.mu_den) ≤
            llMax.tdiv p.sigma_num ∧
            |p.mu_num - p.mu_num.tdiv p.mu_den * p.mu_den| ≤
              llMax.tdiv (p.sigma_den.tdiv (cgcd p.sigma_den p.mu_den)) ∧
            p.mu_den.tdiv (cgcd p.sigma_den p.mu_den) ≤
              llMax.tdiv p.sigma_den
        · rw [if_neg (not_not_intro k1)]
          by_cases k2 : iceil p.sigma_num p.sigma_den ≤
              llMax.tdiv
                (p.sigma_den * (p.mu_den.tdiv (cgcd p.sigma_den p.mu_den)))
          · rw [if_neg (not_not_intro k2)]
            by_cases k3 : iceil p.sigma_num p.sigma_den ≤ intMax.tdiv 51
            · rw [if_neg (not_not_intro k3)]
              by_cases k4 : |p.mu_num.tdiv p.mu_den| ≤
                  intMax - iceil p.sigma_num p.sigma_den * 51
              · rw [if_neg (not_not_intro k4)]
                by_cases k5 : max 2 (p.sigma_num *
                    (p.mu_den.tdiv (cgcd p.sigma_den p.mu_den))) ≤
                    llMax.tdiv (b * 51)
                · exact absurd ⟨k1, k2, k3, k4, k5⟩ hnc
                · rw [if_pos k5]
              · rw [if_pos k4]
            · rw [if_pos k3]
          · rw [if_pos k2]
        · rw [if_pos k1]
    simp only [Option.some_bind]
    rw [hmain, hex]
    constructor
    · exact fun h => Or.inr h
    · rintro (hnp | hq)
      · exact absurd hprim hnp
      · exact hq

/-- Witness for `dnorm_construct_fail_iff`: at base 2, construction with
σ = -1 fails (parameter error), while construction with μ = 1/3,
σ = 129/2 succeeds (all guards hold). -/
theorem dnorm_construct_fail_iff_wit :
    dnormConstruct 2 0 1 (-1) 1 = none ∧
    dnormConstruct 2 1 3 129 2 ≠ none := by
  constructor
  · exact (dnorm_construct_fail_iff 2 0 1 (-1) 1 (by norm_num)).mpr
      (Or.inl (by intro h; have := h.1; omega))
  · intro h
    rcases (dnorm_construct_fail_iff 2 1 3 129 2 (by norm_num)).mp h with
      h1 | ⟨p, hp, hng⟩
    · refine h1 ⟨by norm_num, by norm_num, by norm_num, ?_⟩
      norm_num [intMin]
    · have hpe : p = ⟨1, 3, 129, 2⟩ := by
        have h2 := hp
        rw [show param_init 1 3 129 2 = some ⟨1, 3, 129, 2⟩ from by decide]
          at h2
        exact (Option.some_inj.mp h2).symm
      subst hpe
      refine hng ?_
      unfold guardsHold
      decide

end Exrandom

namespace Exrandom

/-- The rejection step of `discrete_normal_dist::generate` (the
`if (!j.less_than(g, _sig - xn0, _d) || (k == 0 && s < 0 &&
!j.greater_than(g, -xn0, _d))) continue;` statement, with C++
short-circuit evaluation).  Returns `some (reject, j', pos')` where
`reject = true` means the candidate is rejected and the outer loop
restarts. -/
def dnormRejectTest (b : ℤ) (σ : ℕ → ℕ) (sig d xn0 : ℤ) (k : ℕ) (s : ℤ)
    (j : IRand) (pos : ℕ) (fuel : ℕ) : Option (Bool × IRand × ℕ) :=
  (irandLessThan b σ j pos (sig - xn0) d fuel).bind fun r1 =>
    if r1.1 = false then some (true, r1.2)
    else if k = 0 ∧ s < 0 then
      (irandGreaterThan b σ r1.2.1 r1.2.2 (-xn0) d fuel).map fun r2 =>
        (!r2.1, r2.2)
    else some (false, r1.2)

/-- The rejection step as the claim words it: part (a) decided by the
i-rand test `h.less_than(xn0 + _sig, _d)` failing (this definition
follows the spec's sentence, for comparison with `dnormRejectTest` which
follows the source; part (b) is unchanged). -/
def dnormRejectTestClaim (b : ℤ) (σ : ℕ → ℕ) (sig d xn0 : ℤ) (k : ℕ)
    (s : ℤ) (j : IRand) (pos : ℕ) (fuel : ℕ) : Option (Bool × IRand × ℕ) :=
  (irandLessThan b σ j pos (xn0 + sig) d fuel).bind fun r1 =>
    if r1.1 = false then some (true, r1.2)
    else if k = 0 ∧ s < 0 then
      (irandGreaterThan b σ r1.2.1 r1.2.2 (-xn0) d fuel).map fun r2 =>
        (!r2.1, r2.2)
    else some (false, r1.2)

end Exrandom

namespace Exrandom

/-- C3 (amended): in `discrete_normal_dist::generate`, for a realized
residue `h = a` (an i-rand with entropy 0), writing
`x = xn0/_sig + h/σ = (xn0 + a·_d)/_sig`, the candidate is rejected and
the outer loop restarted exactly when either (a) `x ≥ 1`, which is
decided by the i-rand test `h.less_than(_sig - xn0, _d)` failing, or
(b) `k = 0`, `s_sign = -1`, and `x = 0` exactly. -/
theorem dnorm_reject_step (b : ℤ) (σ : ℕ → ℕ) (sig d xn0 : ℤ) (k : ℕ)
    (s a : ℤ) (pos fuel : ℕ) (hsig : 0 < sig) (hd : 0 < d) (hxn : 0 ≤ xn0)
    (ha : 0 ≤ a) (hf : 1 ≤ fuel) :
    ∃ r : Bool,
      dnormRejectTest b σ sig d xn0 k s ⟨a, 1, 0⟩ pos fuel =
        some (r, ⟨a, 1, 0⟩, pos) ∧
      (r = true ↔
        (1 ≤ ((xn0 + a * d : ℤ) : ℚ) / (sig : ℚ) ∨
          (k = 0 ∧ s < 0 ∧ ((xn0 + a * d : ℤ) : ℚ) / (sig : ℚ) = 0))) := by
  obtain ⟨f, rfl⟩ : ∃ f, fuel = f + 1 := ⟨fuel - 1, by omega⟩
  have had : 0 ≤ a * d := mul_nonneg ha (by omega)
  have hsq : (0 : ℚ) < (sig : ℚ) := by exact_mod_cast hsig
  have hcm : a * d = d * a := mul_comm a d
  have hone : (1 : ℚ) ≤ ((xn0 + a * d : ℤ) : ℚ) / (sig : ℚ) ↔
      sig ≤ xn0 + a * d := by
    rw [le_div_iff₀ hsq, one_mul]
    exact_mod_cast Iff.rfl
  have hzero : ((xn0 + a * d : ℤ) : ℚ) / (sig : ℚ) = 0 ↔
      xn0 + a * d ≤ 0 := by
    rw [div_eq_zero_iff]
    constructor
    · rintro (h | h)
      · have : xn0 + a * d = 0 := by exact_mod_cast h
        omega
      · exact absurd h (by exact_mod_cast hsig.ne')
    · intro h
      left
      have : xn0 + a * d = 0 := by omega
      exact_mod_cast this
  have hmax : (IRand.mk a 1 0).max = a := by simp [IRand.max]
  have hmin : (IRand.mk a 1 0).min = a := by simp [IRand.min]
  by_cases hc : d * a < sig - xn0
  · -- less_than succeeds: x < 1
    have hlt : irandLessThan b σ ⟨a, 1, 0⟩ pos (sig - xn0) d (f + 1) =
        some (true, ⟨a, 1, 0⟩, pos) := by
      rw [irandLessThan, hmax, if_pos hc]
    by_cases hks : k = 0 ∧ s < 0
    · by_cases hc2 : d * a < -xn0 + 1
      · -- x = 0: rejected by part (b)
        refine ⟨true, ?_, ?_⟩
        · unfold dnormRejectTest
          rw [hlt]
          have hgt : irandGreaterThan b σ ⟨a, 1, 0⟩ pos (-xn0) d (f + 1) =
              some (false, ⟨a, 1, 0⟩, pos) := by
            unfold irandGreaterThan irandLessThanEqual
            rw [irandLessThan, hmax, if_pos (by omega)]
            rfl
          simp [hks, hgt]
        · simp only [true_iff]
          exact Or.inr ⟨hks.1, hks.2, hzero.mpr (by omega)⟩
      · -- x > 0: not rejected
        refine ⟨false, ?_, ?_⟩
        · unfold dnormRejectTest
          rw [hlt]
          have hgt : irandGreaterThan b σ ⟨a, 1, 0⟩ pos (-xn0) d (f + 1) =
              some (true, ⟨a, 1, 0⟩, pos) := by
            unfold irandGreaterThan irandLessThanEqual
            rw [irandLessThan, hmax, if_neg (by omega), hmin,
              if_pos (by omega)]
            rfl
          simp [hks, hgt]
        · simp only [Bool.false_eq_true, false_iff]
          rintro (h1 | ⟨_, _, h3⟩)
          · rw [hone] at h1; omega
          · rw [hzero] at h3; omega
    · refine ⟨false, ?_, ?_⟩
      · unfold dnormRejectTest
        rw [hlt]
        simp [hks]
      · simp only [Bool.false_eq_true, false_iff]
        rintro (h1 | ⟨hk0, hs0, _⟩)
        · rw [hone] at h1; omega
        · exact hks ⟨hk0, hs0⟩
  · -- less_than fails: x ≥ 1, rejected by part (a)
    have hlt : irandLessThan b σ ⟨a, 1, 0⟩ pos (sig - xn0) d (f + 1) =
        some (false, ⟨a, 1, 0⟩, pos) := by
      rw [irandLessThan, hmax, if_neg hc, hmin, if_pos (by omega)]
    refine ⟨true, ?_, ?_⟩
    · unfold dnormRejectTest
      rw [hlt]
      simp
    · simp only [true_iff]
      exact Or.inl (hone.mpr (by omega))

/-- Witness for `dnorm_reject_step` at σ = 3/2, μ = 0, k = 1, s = +1,
`xn0 = 1`, realized residue `a = 1` (so `x = 1`). -/
theorem dnorm_reject_step_wit :
    ∃ r : Bool,
      dnormRejectTest 2 (fun _ => 0) 3 2 1 1 1 ⟨1, 1, 0⟩ 0 1 =
        some (r, ⟨1, 1, 0⟩, 0) ∧
      (r = true ↔
        (1 ≤ ((1 + 1 * 2 : ℤ) : ℚ) / (3 : ℚ) ∨
          (1 = 0 ∧ (1 : ℤ) < 0 ∧ ((1 + 1 * 2 : ℤ) : ℚ) / (3 : ℚ) = 0))) :=
  dnorm_reject_step 2 (fun _ => 0) 3 2 1 1 1 1 0 1 (by norm_num)
    (by norm_num) (by norm_num) (by norm_num) (by norm_num)

/-- C3 counterexample: with σ = 3/2 (`_sig = 3`, `_d = 2`), k = 1,
s = +1, `xn0 = 1` and the residue realized at `h = 1`, the candidate has
`x = (xn0 + h·_d)/_sig = 1 ≥ 1` and the code rejects it (its test
`h.less_than(_sig - xn0, _d)` fails), but the claim's test
`h.less_than(xn0 + _sig, _d)` succeeds, so the claimed rejection
condition (a) does not fire: the claimed formula is not the rejection
test. -/
theorem dnorm_reject_claim_cex :
    dnormRejectTest 2 (fun _ => 0) 3 2 1 1 1 ⟨1, 1, 0⟩ 0 1 =
      some (true, ⟨1, 1, 0⟩, 0) ∧
    dnormRejectTestClaim 2 (fun _ => 0) 3 2 1 1 1 ⟨1, 1, 0⟩ 0 1 =
      some (false, ⟨1, 1, 0⟩, 0) ∧
    (1 : ℚ) ≤ ((1 + 1 * 2 : ℤ) : ℚ) / (3 : ℚ) := by
  refine ⟨by decide, by decide, by norm_num⟩

end Exrandom

namespace Exrandom

/-! ## Unit exponential sampler: `unit_exponential_dist.hpp`

Algorithm V (`bit_optimized = false`) and Algorithm E
(`bit_optimized = true`, which requires an even base). -/

/-- The digit-comparison loop of `u_rand::less_than(g, t)` (reached when
signs and integer parts agree): draw the `k`-th digit of each side in
order (`*this` first, then `t`) until they differ.  Aliasing
(`this == &t`) does not arise in the sampler loops modelled here.
Returns `(result, *this, t, pos)`. -/
def uLTD (σ : ℕ → ℕ) : URand → URand → ℕ → ℕ → ℕ →
    Option (Bool × URand × URand × ℕ)
  | _, _, _, _, 0 => none
  | x, t, pos, k, fuel + 1 =>
    if (URand.digit σ x pos k).1 ≠
        (URand.digit σ t (URand.digit σ x pos k).2.2 k).1 then
      some (xor (decide (x.s < 0))
          (decide ((URand.digit σ x pos k).1 <
            (URand.digit σ t (URand.digit σ x pos k).2.2 k).1)),
        (URand.digit σ x pos k).2.1,
        (URand.digit σ t (URand.digit σ x pos k).2.2 k).2.1,
        (URand.digit σ t (URand.digit σ x pos k).2.2 k).2.2)
    else
      uLTD σ (URand.digit σ x pos k).2.1
        (URand.digit σ t (URand.digit σ x pos k).2.2 k).2.1
        (URand.digit σ t (URand.digit σ x pos k).2.2 k).2.2 (k + 1) fuel

/-- `u_rand::less_than(g, t)`: compare signs, then integer parts
(flipping the order when the sign is negative), then digit by digit. -/
def uLessThan (σ : ℕ → ℕ) (x t : URand) (pos fuel : ℕ) :
    Option (Bool × URand × URand × ℕ) :=
  if x.s ≠ t.s then some (decide (x.s < t.s), x, t, pos)
  else if x.n ≠ t.n then
    some (xor (decide (x.s < 0)) (decide (x.n < t.n)), x, t, pos)
  else uLTD σ x t pos 0 fuel

/-- `u_rand::less_than_half(g)`: `true` if `s < 0`, `false` if `n > 0`,
else `truncatep(g, 0)`. -/
def uLessThanHalf (b : ℕ) (σ : ℕ → ℕ) (x : URand) (pos fuelT : ℕ) :
    Option (Bool × URand × ℕ) :=
  if x.s < 0 then some (true, x, pos)
  else if 0 < x.n then some (false, x, pos)
  else truncatepAux b σ x pos 0 fuelT

/-- The `for (;;)` loop of `unit_exponential_dist::F`: alternately test
`v.init() < w` (returning rejection on failure) and `w.init() < v`
(returning acceptance on failure), carrying the materialized winner. -/
def expFvnLoop (σ : ℕ → ℕ) : URand → ℕ → ℕ → ℕ → Option (Bool × ℕ)
  | _, _, _, 0 => none
  | w, pos, fuelL, fv + 1 =>
    (uLessThan σ URand.init w pos fuelL).bind fun r1 =>
      if r1.1 = false then some (false, r1.2.2.2)
      else
        (uLessThan σ URand.init r1.2.1 r1.2.2.2 fuelL).bind fun r2 =>
          if r2.1 = false then some (true, r2.2.2.2)
          else expFvnLoop σ r2.2.1 r2.2.2.2 fuelL fv

/-- The von Neumann part of `unit_exponential_dist::F` after the bail
out: `if (!_w.init().less_than(g, p)) return true;` then the alternating
loop.  Returns `(accepted, p, pos)` with `p`'s state as materialized by
the comparison against it. -/
def expFbody (σ : ℕ → ℕ) (p : URand) (pos fuelL fuelV : ℕ) :
    Option (Bool × URand × ℕ) :=
  (uLessThan σ URand.init p pos fuelL).bind fun r1 =>
    if r1.1 = false then some (true, r1.2.2.1, r1.2.2.2)
    else (expFvnLoop σ r1.2.1 r1.2.2.2 fuelL fuelV).map fun rv =>
      (rv.1, r1.2.2.1, rv.2)

/-- `unit_exponential_dist::F(g, p)`: `p.init()`, then (Algorithm E
only) the early bail out `if (bit_optimized && !p.less_than_half(g))
return false;`, then the von Neumann test. -/
def expF (b : ℕ) (σ : ℕ → ℕ) (opt : Bool) (pos : ℕ)
    (fuelT fuelL fuelV : ℕ) : Option (Bool × URand × ℕ) :=
  if opt then
    (uLessThanHalf b σ URand.init pos fuelT).bind fun rh =>
      if rh.1 = false then some (false, rh.2.1, rh.2.2)
      else expFbody σ rh.2.1 rh.2.2 fuelL fuelV
  else expFbody σ URand.init pos fuelL fuelV

/-- `x.rawdigit(0) += (bm1 - 1U)/2U + 1U`: add `(b-2)/2 + 1` (that is,
`b/2` for even `b`) to the first fractional digit. -/
def expAdjust (b : ℕ) : List ℕ → List ℕ
  | [] => []
  | h :: t => (h + ((b - 2) / 2 + 1)) :: t

/-- The `while (!F(g, x)) ++k;` loop of
`unit_exponential_dist::generate` followed by the finalization: if
`bit_optimized` and `k` is odd, add `b/2` to the first digit; set the
integer part to `k/2` (Algorithm E) or `k` (Algorithm V).  Returns
`(x, k, pos)`. -/
def expGenLoop (b : ℕ) (σ : ℕ → ℕ) (opt : Bool) :
    ℕ → ℕ → ℕ → ℕ → ℕ → ℕ → Option (URand × ℕ × ℕ)
  | _, _, _, _, _, 0 => none
  | pos, k, fuelT, fuelL, fuelV, fg + 1 =>
    (expF b σ opt pos fuelT fuelL fuelV).bind fun r =>
      if r.1 = false then
        expGenLoop b σ opt r.2.2 (k + 1) fuelT fuelL fuelV fg
      else
        some (⟨(if opt ∧ k % 2 = 1 then
            URand.mk r.2.1.s r.2.1.n (expAdjust b r.2.1.d) else r.2.1).s,
          (if opt then k / 2 else k),
          (if opt ∧ k % 2 = 1 then
            URand.mk r.2.1.s r.2.1.n (expAdjust b r.2.1.d) else r.2.1).d⟩,
          k, r.2.2)

/-- `unit_exponential_dist::generate(g, x)`: run the loop from `k = 0`. -/
def expGenerate (b : ℕ) (σ : ℕ → ℕ) (opt : Bool)
    (pos fuelT fuelL fuelV fuelG : ℕ) : Option (URand × ℕ × ℕ) :=
  expGenLoop b σ opt pos 0 fuelT fuelL fuelV fuelG

end Exrandom

namespace Exrandom

lemma URand_digit_ext (σ : ℕ → ℕ) (x : URand) (pos k : ℕ) :
    (URand.digit σ x pos k).2.1.s = x.s ∧
    (URand.digit σ x pos k).2.1.n = x.n ∧
    ∃ ext, (URand.digit σ x pos k).2.1.d = x.d ++ ext := by
  unfold URand.digit URand.extendTo
  split
  · exact ⟨rfl, rfl, _, rfl⟩
  · exact ⟨rfl, rfl, [], by simp⟩

lemma uLTD_arg_ext (σ : ℕ → ℕ) :
    ∀ fuel x t pos k r x' t' pos',
      uLTD σ x t pos k fuel = some (r, x', t', pos') →
      t'.s = t.s ∧ t'.n = t.n ∧ ∃ ext, t'.d = t.d ++ ext := by
  intro fuel
  induction fuel with
  | zero => intro x t pos k r x' t' pos' h; simp [uLTD] at h
  | succ n ih =>
    intro x t pos k r x' t' pos' h
    rw [uLTD] at h
    obtain ⟨hs, hn, ext0, hd⟩ :=
      URand_digit_ext σ t (URand.digit σ x pos k).2.2 k
    split at h
    · simp only [Option.some_inj, Prod.mk.injEq] at h
      obtain ⟨_, _, h3, _⟩ := h
      subst h3
      exact ⟨hs, hn, ext0, hd⟩
    · obtain ⟨hs', hn', ext1, hd'⟩ := ih _ _ _ _ _ _ _ _ h
      refine ⟨by rw [hs', hs], by rw [hn', hn], ext0 ++ ext1, ?_⟩
      rw [hd', hd, List.append_assoc]

lemma uLessThan_arg_ext (σ : ℕ → ℕ) (x t : URand) (pos fuel : ℕ)
    (r : Bool) (x' t' : URand) (pos' : ℕ)
    (h : uLessThan σ x t pos fuel = some (r, x', t', pos')) :
    t'.s = t.s ∧ t'.n = t.n ∧ ∃ ext, t'.d = t.d ++ ext := by
  unfold uLessThan at h
  split at h
  · simp only [Option.some_inj, Prod.mk.injEq] at h
    obtain ⟨_, _, h3, _⟩ := h
    subst h3
    exact ⟨rfl, rfl, [], by simp⟩
  · split at h
    · simp only [Option.some_inj, Prod.mk.injEq] at h
      obtain ⟨_, _, h3, _⟩ := h
      subst h3
      exact ⟨rfl, rfl, [], by simp⟩
    · exact uLTD_arg_ext σ fuel x t pos 0 r x' t' pos' h

lemma URand_digit_init (σ : ℕ → ℕ) (pos : ℕ) :
    URand.digit σ URand.init pos 0 = (σ pos, ⟨1, 0, [σ pos]⟩, pos + 1) := by
  simp [URand.digit, URand.extendTo, URand.init, List.range_succ]

lemma truncatep_init_even (b : ℕ) (σ : ℕ → ℕ) (pos fuelT : ℕ)
    (hb : 2 ≤ b) (heven : b % 2 = 0) (r : Bool) (st : URand) (pos' : ℕ)
    (h : truncatepAux b σ URand.init pos 0 fuelT = some (r, st, pos')) :
    st = ⟨1, 0, [σ pos]⟩ ∧ pos' = pos + 1 ∧
    (r = true ↔ σ pos ≤ (b - 2) / 2) := by
  obtain ⟨f, rfl⟩ : ∃ f, fuelT = f + 1 := by
    cases fuelT with
    | zero => simp [truncatepAux] at h
    | succ f => exact ⟨f, rfl⟩
  rw [truncatepAux, URand_digit_init] at h
  by_cases hle : σ pos ≤ (b - 2) / 2
  · rw [if_pos hle] at h
    simp only [Option.some_inj, Prod.mk.injEq] at h
    obtain ⟨h1, h2, h3⟩ := h
    exact ⟨h2.symm, h3.symm, by simp [← h1, hle]⟩
  · rw [if_neg hle, if_pos (by omega)] at h
    simp only [Option.some_inj, Prod.mk.injEq] at h
    obtain ⟨h1, h2, h3⟩ := h
    exact ⟨h2.symm, h3.symm, by simp [← h1, hle]⟩

lemma expF_accept_struct (b : ℕ) (σ : ℕ → ℕ) (pos fT fL fV : ℕ)
    (hb : 2 ≤ b) (heven : b % 2 = 0) (p : URand) (pos2 : ℕ)
    (h : expF b σ true pos fT fL fV = some (true, p, pos2)) :
    p.s = 1 ∧ p.n = 0 ∧ ∃ h0 tl, p.d = h0 :: tl ∧ h0 ≤ (b - 2) / 2 := by
  unfold expF at h
  rw [if_pos rfl] at h
  rcases hrh : uLessThanHalf b σ URand.init pos fT with _ | rh
  · rw [hrh] at h; simp at h
  · rw [hrh] at h
    simp only [Option.some_bind] at h
    by_cases hr1 : rh.1 = false
    · rw [if_pos hr1] at h
      simp at h
    · rw [if_neg hr1] at h
      -- the half test returned true, so `rh` comes from `truncatep`
      have hhalf : truncatepAux b σ URand.init pos 0 fT =
          some (rh.1, rh.2.1, rh.2.2) := by
        unfold uLessThanHalf at hrh
        rw [if_neg (by simp [URand.init]), if_neg (by simp [URand.init])]
          at hrh
        rw [hrh]
    -- rh.2.1 = ⟨1, 0, [σ pos]⟩ with first digit below b/2
      obtain ⟨hst, hpos, hiff⟩ :=
        truncatep_init_even b σ pos fT hb heven rh.1 rh.2.1 rh.2.2 hhalf
      have hd0 : σ pos ≤ (b - 2) / 2 := hiff.mp (by
        cases hr : rh.1
        · exact absurd hr hr1
        · rfl)
      -- p is rh.2.1 as further materialized by the comparison against it
      unfold expFbody at h
      rcases hlt : uLessThan σ URand.init rh.2.1 rh.2.2 fL with _ | r1
      · rw [hlt] at h; simp at h
      · rw [hlt] at h
        simp only [Option.some_bind] at h
        obtain ⟨hs, hn, ext, hd⟩ :=
          uLessThan_arg_ext σ URand.init rh.2.1 rh.2.2 fL r1.1 r1.2.1
            r1.2.2.1 r1.2.2.2 (by rw [hlt])
        have hp : p = r1.2.2.1 := by
          split at h
          · simp only [Option.some_inj, Prod.mk.injEq] at h
            exact h.2.1.symm
          · rcases hv : expFvnLoop σ r1.2.1 r1.2.2.2 fL fV with _ | rv
            · rw [hv] at h; simp at h
            · rw [hv] at h
              simp only [Option.map_some'] at h
              simp only [Option.some_inj, Prod.mk.injEq] at h
              exact h.2.1.symm
        subst hp
        rw [hst] at hs hn hd
        exact ⟨hs, hn, σ pos, ext, by simpa using hd, hd0⟩

end Exrandom

namespace Exrandom

/-- C5: in `unit_exponential_dist::generate` with `bit_optimized = true`
(Algorithm E, even base): the sub-procedure F bails out (returns `false`,
running nothing further) whenever the test `p < 1/2` fails, so its von
Neumann part runs only on fractions `p < 1/2`; each F failure increments
`k` (the loop counter only grows); and on acceptance the accepted `p` has
first digit `h0 < b/2` and the result is `p` with `b/2` added to its
first fractional digit when `k` is odd, with integer part `k/2`.  With
`bit_optimized = false` (Algorithm V) the integer part is set to `k`. -/
theorem exp_generate_claim (b : ℕ) (σ : ℕ → ℕ) (hb : 2 ≤ b)
    (heven : b % 2 = 0) :
    (∀ pos fT fL fV rh, uLessThanHalf b σ URand.init pos fT = some rh →
      rh.1 = false →
      expF b σ true pos fT fL fV = some (false, rh.2.1, rh.2.2)) ∧
    (∀ fg pos k0 fT fL fV x k posf,
      expGenLoop b σ true pos k0 fT fL fV fg = some (x, k, posf) →
      k0 ≤ k ∧ x.n = k / 2 ∧
      ∃ pos1 p pos2, expF b σ true pos1 fT fL fV = some (true, p, pos2) ∧
        posf = pos2 ∧ p.s = 1 ∧ p.n = 0 ∧
        ∃ h0 tl, p.d = h0 :: tl ∧ 2 * h0 + 2 ≤ b ∧
          x = ⟨1, k / 2, (if k % 2 = 1 then h0 + b / 2 else h0) :: tl⟩) ∧
    (∀ fg pos k0 fT fL fV x k posf,
      expGenLoop b σ false pos k0 fT fL fV fg = some (x, k, posf) →
      x.n = k ∧ k0 ≤ k) := by
  have hhalfadd : (b - 2) / 2 + 1 = b / 2 := by omega
  refine ⟨?_, ?_, ?_⟩
  · intro pos fT fL fV rh hrh hfalse
    unfold expF
    rw [if_pos rfl, hrh]
    simp only [Option.some_bind, if_pos hfalse]
  · intro fg
    induction fg with
    | zero => intro pos k0 fT fL fV x k posf h; simp [expGenLoop] at h
    | succ n ih =>
      intro pos k0 fT fL fV x k posf h
      rw [expGenLoop] at h
      rcases hF : expF b σ true pos fT fL fV with _ | r
      · rw [hF] at h; simp at h
      · rw [hF] at h
        simp only [Option.some_bind] at h
        rcases r with ⟨rb, rp, rpos⟩
        by_cases hr : rb = false
        · rw [if_pos hr] at h
          obtain ⟨hk, hrest⟩ := ih _ _ _ _ _ _ _ _ h
          exact ⟨by omega, hrest⟩
        · have hrt : rb = true := by
            cases rb
            · exact absurd rfl hr
            · rfl
          subst hrt
          rw [if_neg hr] at h
          simp only [Option.some_inj, Prod.mk.injEq] at h
          obtain ⟨hx, hk, hpos⟩ := h
          subst hk
          obtain ⟨hs, hn, h0, tl, hd, hle⟩ :=
            expF_accept_struct b σ pos fT fL fV hb heven rp rpos hF
          refine ⟨le_refl _, ?_, pos, rp, rpos, hF, hpos.symm, hs, hn,
            h0, tl, hd, by omega, ?_⟩
          · rw [← hx]
            simp
          · rw [← hx, hd]
            by_cases hodd : k0 % 2 = 1
            · simp [hodd, hs, hhalfadd, expAdjust]
            · simp [hodd, hs, hd]
  · intro fg
    induction fg with
    | zero => intro pos k0 fT fL fV x k posf h; simp [expGenLoop] at h
    | succ n ih =>
      intro pos k0 fT fL fV x k posf h
      rw [expGenLoop] at h
      rcases hF : expF b σ false pos fT fL fV with _ | r
      · rw [hF] at h; simp at h
      · rw [hF] at h
        simp only [Option.some_bind] at h
        rcases r with ⟨rb, rp, rpos⟩
        by_cases hr : rb = false
        · rw [if_pos hr] at h
          obtain ⟨hxn, hk⟩ := ih _ _ _ _ _ _ _ _ h
          exact ⟨hxn, by omega⟩
        · rw [if_neg hr] at h
          simp only [Option.some_inj, Prod.mk.injEq] at h
          obtain ⟨hx, hk, hpos⟩ := h
          subst hk
          constructor
          · rw [← hx]
            simp
          · exact le_refl _

/-- Witness for `exp_generate_claim`: base 2 on the stream
`0,1,1,0,1,0,...`; Algorithm E accepts at once with `k = 0` and result
`+0.0...` (two digits consumed). -/
theorem exp_generate_claim_wit :
    (2 ≤ 2 ∧ 2 % 2 = 0) ∧
    (0 ≤ 0 ∧ (URand.mk 1 0 [0]).n = 0 / 2 ∧
      ∃ pos1 p pos2,
        expF 2 (fun i => [0, 1, 1, 0, 1, 0, 0, 1, 1, 0, 1, 0].getD i 0) true
            pos1 10 10 10 = some (true, p, pos2) ∧
        2 = pos2 ∧ p.s = 1 ∧ p.n = 0 ∧
        ∃ h0 tl, p.d = h0 :: tl ∧ 2 * h0 + 2 ≤ 2 ∧
          URand.mk 1 0 [0] =
            ⟨1, 0 / 2, (if 0 % 2 = 1 then h0 + 2 / 2 else h0) :: tl⟩) :=
  ⟨⟨by norm_num, by norm_num⟩,
    (exp_generate_claim 2
        (fun i => [0, 1, 1, 0, 1, 0, 0, 1, 1, 0, 1, 0].getD i 0)
        (by norm_num) (by norm_num)).2.1 10 0 0 10 10 10 ⟨1, 0, [0]⟩ 0 2
      (by decide)⟩

end Exrandom

namespace Exrandom

/-! ## Rounding to floating point: `u_rand::value`

The embedding covers the binary regime of `value<RealType>`: the
floating-point radix is 2 and the u-rand base is `b = 2^bits` (the
source's `static_assert` admits exactly this regime for ordinary float
types; the decimal regime `radix == base` even applies only to types
such as `cpp_dec_float`).  `RealType` values are represented by `ℚ`: the
additions and `ldexp` scalings performed by `value` are exact in
`RealType` by construction, so exact rational arithmetic is the faithful
interpretation.  The `RealType` traits `digits`, `min_exponent`,
`has_denorm` are the fields of `FSpec`; `std::numeric_limits::min()` is
`2^(minExp - 1)`. -/

/-- `highest_bit_idx` with structural fuel; `x` itself bounds the
recursion depth. -/
def hbiAux : ℕ → ℕ → ℕ
  | 0, _ => 0
  | fuel + 1, x => if x = 0 then 0 else 1 + hbiAux fuel (x / 2)

/-- `highest_bit_idx(x)`: position of the most significant bit (0 for
`x = 0`, 32 for `x = 2^32 - 1`). -/
def highBitIdx (x : ℕ) : ℕ := hbiAux x x

/-- `std::float_round_style`. -/
inductive RStyle where
  | indeterminate
  | towardZero
  | toNearest
  | towardInfinity
  | towardNegInfinity
  deriving Repr, DecidableEq

/-- The `RealType` traits used by `value`: `digits` (precision),
`min_exponent`, `has_denorm`. -/
structure FSpec where
  digits : ℕ
  minExp : ℤ
  denorm : Bool
  deriving Repr, DecidableEq

/-- The initial rounding-direction flag of `value` (for the magnitude):
`0` for round-to-nearest (resolved later), `-1` down, `+1` up. -/
def flag0 (rnd : RStyle) (s : ℤ) : ℤ :=
  match rnd with
  | RStyle.toNearest => 0
  | RStyle.towardZero => -1
  | RStyle.towardInfinity => s
  | RStyle.towardNegInfinity => -s
  | RStyle.indeterminate => 1

/-- The lead-digit scan of `value` for `_n = 0`:
`while (digit(g, i) == 0 && i < (-min_exp)/xbits) ++i;`.  `rem` is the
remaining iteration budget `bound - i`, so the loop draws digit `i`,
continues while it is zero and `rem > 0`, and returns `i` with the
updated u-rand and position. -/
def leadScan (σ : ℕ → ℕ) : URand → ℕ → ℕ → ℕ → ℕ × URand × ℕ
  | x, pos, i, 0 =>
    (i, (URand.digit σ x pos i).2.1, (URand.digit σ x pos i).2.2)
  | x, pos, i, rem + 1 =>
    if (URand.digit σ x pos i).1 = 0 then
      leadScan σ (URand.digit σ x pos i).2.1 (URand.digit σ x pos i).2.2
        (i + 1) rem
    else (i, (URand.digit σ x pos i).2.1, (URand.digit σ x pos i).2.2)

/-- Position of the leading bit of `|x|` (0.5 = position 0): from the
integer part when `_n ≠ 0`, else from the first nonzero fractional digit,
clamped at the underflow boundary according to the subnormal policy. -/
def uValueLead (bits : ℕ) (σ : ℕ → ℕ) (F : FSpec) (x : URand) (pos : ℕ) :
    ℤ × URand × ℕ :=
  if x.n ≠ 0 then ((highBitIdx x.n : ℤ), x, pos)
  else
    ((fun l0 =>
        if F.minExp ≤ l0 then l0
        else if F.denorm then F.minExp else F.minExp - 1)
      ((highBitIdx ((leadScan σ x pos 0 ((-F.minExp).toNat / bits)).2.1.d.getD
          (leadScan σ x pos 0 ((-F.minExp).toNat / bits)).1 0) : ℤ) -
        ((leadScan σ x pos 0 ((-F.minExp).toNat / bits)).1 + 1 : ℕ) * bits),
      (leadScan σ x pos 0 ((-F.minExp).toNat / bits)).2.1,
      (leadScan σ x pos 0 ((-F.minExp).toNat / bits)).2.2)

/-- Position of the rounding bit:
`trail = lead - (lead >= min_exp ? digits : 0)`. -/
def uValueTrail (F : FSpec) (lead : ℤ) : ℤ :=
  lead - (if F.minExp ≤ lead then (F.digits : ℤ) else 0)

/-- Resolution of the rounding flag: for round-to-nearest read the bit
at position `trail - 1` (from `_n` if `trail > 0`, else from the
appropriate fractional digit, drawing it if needed). -/
def uValueFlag (bits : ℕ) (σ : ℕ → ℕ) (rnd : RStyle) (x : URand)
    (pos : ℕ) (trail : ℤ) : ℤ × URand × ℕ :=
  if flag0 rnd x.s = 0 then
    if 0 < trail then
      (if x.n / 2 ^ (trail.toNat - 1) % 2 = 0 then -1 else 1, x, pos)
    else
      (if (URand.digit σ x pos ((-trail).toNat / bits)).1 /
            2 ^ (bits - 1 - (-trail).toNat % bits) % 2 = 0 then -1 else 1,
        (URand.digit σ x pos ((-trail).toNat / bits)).2.1,
        (URand.digit σ x pos ((-trail).toNat / bits)).2.2)
  else (flag0 rnd x.s, x, pos)

/-- The assembly of the magnitude `z`: the retained bits in
`(trail, lead]` plus the rounding increment `inc * 2^trail`, or
`inc * 2^(minExp-1)` on underflow without subnormals.  The bit masks
`v & (~0 << t)` of the source are `(v / 2^t) * 2^t`. -/
def uValueZ (bits : ℕ) (σ : ℕ → ℕ) (F : FSpec) (lead trail : ℤ)
    (inc : ℚ) (x : URand) (pos : ℕ) : ℚ × URand × ℕ :=
  if 0 ≤ trail then
    (inc * 2 ^ trail.toNat + ((x.n / 2 ^ trail.toNat) * 2 ^ trail.toNat : ℕ),
      x, pos)
  else if F.minExp ≤ lead then
    ((x.n : ℚ) +
      (((URand.digit σ x pos (((-trail).toNat - 1) / bits)).2.1.d.take
          (((-trail).toNat - 1) / bits)).foldr
        (fun (dj : ℕ) (acc : ℚ) => (dj : ℚ) + acc * ((2 : ℚ) ^ bits)⁻¹)
        (inc * 2 ^ ((((-trail).toNat - 1) / bits + 1) * bits -
            (-trail).toNat) +
          (((URand.digit σ x pos (((-trail).toNat - 1) / bits)).1 /
              2 ^ ((((-trail).toNat - 1) / bits + 1) * bits -
                (-trail).toNat)) *
            2 ^ ((((-trail).toNat - 1) / bits + 1) * bits -
              (-trail).toNat) : ℕ))) *
      ((2 : ℚ) ^ bits)⁻¹,
      (URand.digit σ x pos (((-trail).toNat - 1) / bits)).2.1,
      (URand.digit σ x pos (((-trail).toNat - 1) / bits)).2.2)
  else (inc * (2 : ℚ) ^ (F.minExp - 1), x, pos)

/-- `u_rand::value<RealType>(g, rnd, flag)` in the binary regime:
returns `(r, flag, x', pos')`. -/
def uValue (bits : ℕ) (σ : ℕ → ℕ) (F : FSpec) (rnd : RStyle) (x : URand)
    (pos : ℕ) : ℚ × ℤ × URand × ℕ :=
  ((x.s : ℚ) *
      (uValueZ bits σ F (uValueLead bits σ F x pos).1
        (uValueTrail F (uValueLead bits σ F x pos).1)
        (if 0 < (uValueFlag bits σ rnd (uValueLead bits σ F x pos).2.1
            (uValueLead bits σ F x pos).2.2
            (uValueTrail F (uValueLead bits σ F x pos).1)).1
          then 1 else 0)
        (uValueFlag bits σ rnd (uValueLead bits σ F x pos).2.1
          (uValueLead bits σ F x pos).2.2
          (uValueTrail F (uValueLead bits σ F x pos).1)).2.1
        (uValueFlag bits σ rnd (uValueLead bits σ F x pos).2.1
          (uValueLead bits σ F x pos).2.2
          (uValueTrail F (uValueLead bits σ F x pos).1)).2.2).1,
    (uValueFlag bits σ rnd (uValueLead bits σ F x pos).2.1
      (uValueLead bits σ F x pos).2.2
      (uValueTrail F (uValueLead bits σ F x pos).1)).1 * x.s,
    (uValueZ bits σ F (uValueLead bits σ F x pos).1
      (uValueTrail F (uValueLead bits σ F x pos).1)
      (if 0 < (uValueFlag bits σ rnd (uValueLead bits σ F x pos).2.1
          (uValueLead bits σ F x pos).2.2
          (uValueTrail F (uValueLead bits σ F x pos).1)).1
        then 1 else 0)
      (uValueFlag bits σ rnd (uValueLead bits σ F x pos).2.1
        (uValueLead bits σ F x pos).2.2
        (uValueTrail F (uValueLead bits σ F x pos).1)).2.1
      (uValueFlag bits σ rnd (uValueLead bits σ F x pos).2.1
        (uValueLead bits σ F x pos).2.2
        (uValueTrail F (uValueLead bits σ F x pos).1)).2.2).2)

/-- The fractional value `Σ_k d_k B^(-k-1)` of a digit list. -/
def fracVal (B : ℕ) (ds : List ℕ) : ℚ :=
  ds.foldr (fun d acc => ((d : ℚ) + acc) / B) 0

/-- The real denoted by a u-rand whose unrealized suffix is `U = u`:
`s (n + Σ_k d_k B^(-k-1) + B^(-K) u)`. -/
def uVal (B : ℕ) (x : URand) (u : ℚ) : ℚ :=
  (x.s : ℚ) * ((x.n : ℚ) + fracVal B x.d + u * ((B : ℚ)⁻¹) ^ x.d.length)

end Exrandom

namespace Exrandom

lemma hbiAux_lt : ∀ fuel x, x ≤ fuel → x < 2 ^ hbiAux fuel x := by
  intro fuel
  induction fuel with
  | zero => intro x hx; interval_cases x; simp [hbiAux]
  | succ n ih =>
    intro x hx
    rw [hbiAux]
    by_cases h0 : x = 0
    · simp [h0]
    · rw [if_neg h0]
      have hrec : x / 2 < 2 ^ hbiAux n (x / 2) := by
        refine ih (x / 2) ?_
        omega
      have : x < 2 * (x / 2) + 2 := by omega
      calc x < 2 * (x / 2) + 2 := this
        _ ≤ 2 * 2 ^ hbiAux n (x / 2) := by omega
        _ = 2 ^ (1 + hbiAux n (x / 2)) := by rw [pow_add]; ring

lemma highBitIdx_lt (x : ℕ) : x < 2 ^ highBitIdx x :=
  hbiAux_lt x x (le_refl x)

lemma fracVal_nonneg (B : ℕ) (ds : List ℕ) : 0 ≤ fracVal B ds := by
  induction ds with
  | nil => simp [fracVal]
  | cons d t ih =>
    show 0 ≤ ((d : ℚ) + fracVal B t) / B
    have : (0 : ℚ) ≤ B := by positivity
    positivity

lemma fracVal_le (B : ℕ) (hB : 1 ≤ B) :
    ∀ ds : List ℕ, (∀ d ∈ ds, d < B) →
      fracVal B ds ≤ 1 - (((B : ℚ))⁻¹) ^ ds.length := by
  intro ds
  induction ds with
  | nil => simp [fracVal]
  | cons d t ih =>
    intro hd
    have hBq : (0 : ℚ) < B := by exact_mod_cast hB
    show ((d : ℚ) + fracVal B t) / B ≤ _
    have h1 : fracVal B t ≤ 1 - (((B : ℚ))⁻¹) ^ t.length :=
      ih (fun e he => hd e (List.mem_cons_of_mem d he))
    have h2 : (d : ℚ) ≤ (B : ℚ) - 1 := by
      have : d < B := hd d (List.mem_cons_self d t)
      have : (d : ℚ) < (B : ℚ) := by exact_mod_cast this
      have hd1 : (d : ℚ) + 1 ≤ (B : ℚ) := by
        have : ((d + 1 : ℕ) : ℚ) ≤ ((B : ℕ) : ℚ) := by
          exact_mod_cast hd d (List.mem_cons_self d t)
        push_cast at this
        linarith
      linarith
    rw [div_le_iff₀ hBq]
    have hlen : ((B : ℚ))⁻¹ ^ (d :: t).length * B =
        ((B : ℚ))⁻¹ ^ t.length := by
      rw [List.length_cons, pow_succ]
      field_simp
      ring
    calc (d : ℚ) + fracVal B t
        ≤ ((B : ℚ) - 1) + (1 - (((B : ℚ))⁻¹) ^ t.length) := by linarith
      _ = (B : ℚ) - (((B : ℚ))⁻¹) ^ t.length := by ring
      _ = (1 - (((B : ℚ))⁻¹) ^ (d :: t).length) * B := by
          rw [sub_mul, one_mul, hlen]

lemma fracVal_take_drop (B : ℕ) (hB : 1 ≤ B) :
    ∀ (k : ℕ) (ds : List ℕ),
      fracVal B ds = fracVal B (ds.take k) +
        (((B : ℚ))⁻¹) ^ k * fracVal B (ds.drop k) := by
  intro k
  induction k with
  | zero => intro ds; simp [fracVal]
  | succ m ih =>
    intro ds
    cases ds with
    | nil => simp [fracVal]
    | cons d t =>
      have hBq : (0 : ℚ) < B := by exact_mod_cast hB
      simp only [List.take_succ_cons, List.drop_succ_cons]
      show ((d : ℚ) + fracVal B t) / B = ((d : ℚ) + fracVal B (t.take m)) / B +
        ((B : ℚ))⁻¹ ^ (m + 1) * fracVal B (t.drop m)
      rw [ih t]
      rw [pow_succ]
      field_simp
      ring

/-- After `digit(g, k)`, digit `k` exists. -/
lemma URand_digit_len (σ : ℕ → ℕ) (x : URand) (pos k : ℕ) :
    k < (URand.digit σ x pos k).2.1.d.length := by
  unfold URand.digit URand.extendTo
  split
  · rename_i h
    simp only [List.length_append, List.length_map, List.length_range]
    omega
  · rename_i h
    simpa using by omega

/-- The returned digit is the `k`-th digit of the returned state. -/
lemma URand_digit_getD (σ : ℕ → ℕ) (x : URand) (pos k : ℕ) :
    (URand.digit σ x pos k).2.1.d.getD k 0 = (URand.digit σ x pos k).1 :=
  rfl

/-- `digit` preserves the in-range property of the digit vector. -/
lemma URand_digit_lt (B : ℕ) (σ : ℕ → ℕ) (x : URand) (pos k : ℕ)
    (hσ : ∀ i, σ i < B) (hxd : ∀ d ∈ x.d, d < B) :
    ∀ d ∈ (URand.digit σ x pos k).2.1.d, d < B := by
  unfold URand.digit URand.extendTo
  split
  · intro d hd
    simp only [List.mem_append, List.mem_map] at hd
    rcases hd with hd | ⟨i, _, hi⟩
    · exact hxd d hd
    · rw [← hi]; exact hσ _
  · exact hxd

/-- Existing digits keep their values under `digit`. -/
lemma URand_digit_stable (σ : ℕ → ℕ) (x : URand) (pos k j : ℕ)
    (hj : j < x.d.length) :
    (URand.digit σ x pos k).2.1.d.getD j 0 = x.d.getD j 0 := by
  obtain ⟨_, _, ext, hd⟩ := URand_digit_ext σ x pos k
  rw [hd]
  exact List.getD_append x.d ext 0 j hj

end Exrandom

namespace Exrandom

lemma foldr_digits_split (β : ℚ) :
    ∀ (l : List ℕ) (z : ℚ),
      l.foldr (fun (dj : ℕ) (acc : ℚ) => (dj : ℚ) + acc * β) z =
        l.foldr (fun (dj : ℕ) (acc : ℚ) => (dj : ℚ) + acc * β) 0 +
          z * β ^ l.length := by
  intro l
  induction l with
  | nil => intro z; simp
  | cons d t ih =>
    intro z
    simp only [List.foldr_cons, List.length_cons]
    rw [ih z]
    ring

lemma fracVal_eq_foldr (B : ℕ) :
    ∀ l : List ℕ,
      fracVal B l =
        (l.foldr (fun (dj : ℕ) (acc : ℚ) => (dj : ℚ) + acc * ((B : ℚ))⁻¹) 0) *
          (B : ℚ)⁻¹ := by
  intro l
  induction l with
  | nil => simp [fracVal]
  | cons d t ih =>
    show ((d : ℚ) + fracVal B t) / B = _
    simp only [List.foldr_cons]
    rw [ih, div_eq_mul_inv]

lemma fracVal_take_zero (B : ℕ) :
    ∀ (i : ℕ) (ds : List ℕ), (∀ j, j < i → ds.getD j 0 = 0) →
      fracVal B (ds.take i) = 0 := by
  intro i
  induction i with
  | zero => intro ds _; simp [fracVal]
  | succ m ih =>
    intro ds hz
    cases ds with
    | nil => simp [fracVal]
    | cons d t =>
      have hd0 : d = 0 := hz 0 (by omega)
      have ht : fracVal B (t.take m) = 0 :=
        ih t (fun j hj => hz (j + 1) (by omega))
      simp only [List.take_succ_cons]
      show ((d : ℚ) + fracVal B (t.take m)) / B = 0
      rw [hd0, ht]
      simp

lemma fracVal_take_succ (B : ℕ) :
    ∀ (k : ℕ) (ds : List ℕ), k < ds.length →
      fracVal B (ds.take (k + 1)) = fracVal B (ds.take k) +
        ((B : ℚ)⁻¹) ^ k * ((ds.getD k 0 : ℚ) / B) := by
  intro k
  induction k with
  | zero =>
    intro ds hk
    cases ds with
    | nil => simp at hk
    | cons d t =>
      show ((d : ℚ) + fracVal B []) / B = fracVal B [] + 1 * ((d : ℚ) / B)
      simp [fracVal]
  | succ m ih =>
    intro ds hk
    cases ds with
    | nil => simp at hk
    | cons d t =>
      simp only [List.take_succ_cons, List.getD_cons_succ]
      show ((d : ℚ) + fracVal B (t.take (m + 1))) / B = _
      rw [ih t (by simpa using hk)]
      show _ = ((d : ℚ) + fracVal B (t.take m)) / B +
        ((B : ℚ)⁻¹) ^ (m + 1) * ((t.getD m 0 : ℚ) / B)
      rw [pow_succ]
      ring

lemma rem_bounds (B : ℕ) (hB : 2 ≤ B) (ds : List ℕ)
    (hd : ∀ d ∈ ds, d < B) (k : ℕ) (u : ℚ)
    (hu0 : 0 < u) (hu1 : u < 1) :
    0 < fracVal B (ds.drop k) + u * ((B : ℚ)⁻¹) ^ (ds.length - k) ∧
    fracVal B (ds.drop k) + u * ((B : ℚ)⁻¹) ^ (ds.length - k) < 1 := by
  have hBq : (0 : ℚ) < B := by
    have : (0 : ℕ) < B := by omega
    exact_mod_cast this
  have hβ : (0 : ℚ) < ((B : ℚ))⁻¹ ^ (ds.length - k) := by positivity
  constructor
  · have := fracVal_nonneg B (ds.drop k)
    nlinarith
  · have h1 : fracVal B (ds.drop k) ≤
        1 - ((B : ℚ)⁻¹) ^ (ds.drop k).length :=
      fracVal_le B (by omega) (ds.drop k)
        (fun d hdm => hd d (List.mem_of_mem_drop hdm))
    rw [List.length_drop] at h1
    nlinarith

lemma mag_decomp (B : ℕ) (hB : 1 ≤ B) (ds : List ℕ) (k : ℕ)
    (hk : k ≤ ds.length) (u : ℚ) :
    fracVal B ds + u * ((B : ℚ)⁻¹) ^ ds.length =
      fracVal B (ds.take k) + ((B : ℚ)⁻¹) ^ k *
        (fracVal B (ds.drop k) + u * ((B : ℚ)⁻¹) ^ (ds.length - k)) := by
  rw [fracVal_take_drop B hB k ds]
  have : ((B : ℚ)⁻¹) ^ ds.length =
      ((B : ℚ)⁻¹) ^ k * ((B : ℚ)⁻¹) ^ (ds.length - k) := by
    rw [← pow_add]
    congr 1
    omega
  rw [this]
  ring

lemma leadScan_spec (σ : ℕ → ℕ) :
    ∀ rem x pos i,
      (leadScan σ x pos i rem).2.1.s = x.s ∧
      (leadScan σ x pos i rem).2.1.n = x.n ∧
      (∃ ext, (leadScan σ x pos i rem).2.1.d = x.d ++ ext) ∧
      i ≤ (leadScan σ x pos i rem).1 ∧
      (leadScan σ x pos i rem).1 < (leadScan σ x pos i rem).2.1.d.length ∧
      (∀ j, i ≤ j → j < (leadScan σ x pos i rem).1 →
        (leadScan σ x pos i rem).2.1.d.getD j 0 = 0) ∧
      (∀ B, (∀ i2, σ i2 < B) → (∀ d ∈ x.d, d < B) →
        ∀ d ∈ (leadScan σ x pos i rem).2.1.d, d < B) := by
  intro rem
  induction rem with
  | zero =>
    intro x pos i
    simp only [leadScan]
    obtain ⟨hs, hn, ext, hd⟩ := URand_digit_ext σ x pos i
    refine ⟨hs, hn, ⟨ext, hd⟩, le_refl _, URand_digit_len σ x pos i,
      fun j h1 h2 => by omega, fun B hσ hxd => URand_digit_lt B σ x pos i hσ hxd⟩
  | succ m ih =>
    intro x pos i
    rw [leadScan]
    by_cases h0 : (URand.digit σ x pos i).1 = 0
    · rw [if_pos h0]
      obtain ⟨hs1, hn1, ext1, hd1⟩ := URand_digit_ext σ x pos i
      obtain ⟨hs, hn, ⟨ext, hd⟩, hle, hlen, hz, hlt⟩ :=
        ih (URand.digit σ x pos i).2.1 (URand.digit σ x pos i).2.2 (i + 1)
      refine ⟨by rw [hs, hs1], by rw [hn, hn1],
        ⟨ext1 ++ ext, by rw [hd, hd1, List.append_assoc]⟩, by omega,
        hlen, ?_, ?_⟩
      · intro j h1 h2
        rcases Nat.lt_or_ge j (i + 1) with hj | hj
        · have hji : j = i := by omega
          subst hji
          rw [hd]
          rw [List.getD_append _ _ 0 j (URand_digit_len σ x pos j)]
          rw [URand_digit_getD]
          exact h0
        · exact hz j hj h2
      · intro B hσ hxd
        exact hlt B hσ (URand_digit_lt B σ x pos i hσ hxd)
    · rw [if_neg h0]
      obtain ⟨hs, hn, ext, hd⟩ := URand_digit_ext σ x pos i
      refine ⟨hs, hn, ⟨ext, hd⟩, le_refl _, URand_digit_len σ x pos i,
        fun j h1 h2 => by omega, fun B hσ hxd => URand_digit_lt B σ x pos i hσ hxd⟩

end Exrandom

namespace Exrandom

lemma uValueFlag_spec (bits : ℕ) (σ : ℕ → ℕ) (rnd : RStyle) (x : URand)
    (pos : ℕ) (trail : ℤ) (hs : x.s = 1 ∨ x.s = -1) :
    ((uValueFlag bits σ rnd x pos trail).1 = 1 ∨
      (uValueFlag bits σ rnd x pos trail).1 = -1) ∧
    (uValueFlag bits σ rnd x pos trail).2.1.s = x.s ∧
    (uValueFlag bits σ rnd x pos trail).2.1.n = x.n ∧
    (∃ ext, (uValueFlag bits σ rnd x pos trail).2.1.d = x.d ++ ext) ∧
    (∀ B, (∀ i, σ i < B) → (∀ d ∈ x.d, d < B) →
      ∀ d ∈ (uValueFlag bits σ rnd x pos trail).2.1.d, d < B) := by
  unfold uValueFlag
  by_cases h0 : flag0 rnd x.s = 0
  · rw [if_pos h0]
    by_cases htr : 0 < trail
    · rw [if_pos htr]
      refine ⟨?_, rfl, rfl, ⟨[], by simp⟩, fun B _ hxd => by simpa using hxd⟩
      split
      · exact Or.inr rfl
      · exact Or.inl rfl
    · rw [if_neg htr]
      obtain ⟨hs1, hn1, ext1, hd1⟩ :=
        URand_digit_ext σ x pos ((-trail).toNat / bits)
      refine ⟨?_, hs1, hn1, ⟨ext1, hd1⟩,
        fun B hσ hxd => URand_digit_lt B σ x pos _ hσ hxd⟩
      split
      · exact Or.inr rfl
      · exact Or.inl rfl
  · rw [if_neg h0]
    refine ⟨?_, rfl, rfl, ⟨[], by simp⟩, fun B _ hxd => by simpa using hxd⟩
    cases rnd with
    | toNearest => exact absurd rfl h0
    | towardZero => exact Or.inr rfl
    | towardInfinity => rcases hs with h | h <;> simp [flag0, h]
    | towardNegInfinity => rcases hs with h | h <;> simp [flag0, h]
    | indeterminate => exact Or.inl rfl

lemma uValueLead_spec (bits : ℕ) (σ : ℕ → ℕ) (F : FSpec) (x : URand)
    (pos : ℕ) (hminExp : F.minExp ≤ 0) :
    (uValueLead bits σ F x pos).2.1.s = x.s ∧
    (uValueLead bits σ F x pos).2.1.n = x.n ∧
    (∃ ext, (uValueLead bits σ F x pos).2.1.d = x.d ++ ext) ∧
    (∀ B, (∀ i, σ i < B) → (∀ d ∈ x.d, d < B) →
      ∀ d ∈ (uValueLead bits σ F x pos).2.1.d, d < B) ∧
    ((uValueLead bits σ F x pos).1 < F.minExp →
      x.n = 0 ∧
      ∃ i, i < (uValueLead bits σ F x pos).2.1.d.length ∧
        (∀ j, j < i → (uValueLead bits σ F x pos).2.1.d.getD j 0 = 0) ∧
        ((highBitIdx ((uValueLead bits σ F x pos).2.1.d.getD i 0) : ℤ) -
          (i + 1 : ℕ) * bits < F.minExp)) := by
  unfold uValueLead
  by_cases hn : x.n ≠ 0
  · rw [if_pos hn]
    refine ⟨rfl, rfl, ⟨[], by simp⟩, fun B _ hxd => by simpa using hxd,
      fun hlt => ?_⟩
    exact absurd hlt (by
      have : (0 : ℤ) ≤ (highBitIdx x.n : ℤ) := Int.ofNat_nonneg _
      omega)
  · rw [if_neg hn]
    push_neg at hn
    obtain ⟨hs, hn', ⟨ext, hd⟩, hle, hlen, hz, hlt⟩ :=
      leadScan_spec σ ((-F.minExp).toNat / bits) x pos 0
    refine ⟨hs, hn', ⟨ext, hd⟩, fun B hσ hxd => hlt B hσ hxd, fun hlead => ?_⟩
    refine ⟨hn, (leadScan σ x pos 0 ((-F.minExp).toNat / bits)).1, hlen,
      fun j hj => hz j (by omega) hj, ?_⟩
    set l0 : ℤ :=
      (highBitIdx ((leadScan σ x pos 0 ((-F.minExp).toNat / bits)).2.1.d.getD
        (leadScan σ x pos 0 ((-F.minExp).toNat / bits)).1 0) : ℤ) -
      ((leadScan σ x pos 0 ((-F.minExp).toNat / bits)).1 + 1 : ℕ) * bits
      with hl0
    simp only at hlead
    by_cases hc1 : F.minExp ≤ l0
    · rw [if_pos hc1] at hlead
      omega
    · rw [if_neg hc1] at hlead
      omega

end Exrandom

namespace Exrandom

lemma uValueZ_spec_nonneg (bits : ℕ) (σ : ℕ → ℕ) (F : FSpec)
    (lead trail : ℤ) (inc : ℚ) (st : URand) (pos : ℕ)
    (hbits : 1 ≤ bits) (htr : 0 ≤ trail)
    (hd : ∀ d ∈ st.d, d < 2 ^ bits) :
    ∃ T Q : ℚ, 0 < Q ∧
      (uValueZ bits σ F lead trail inc st pos).1 = T + inc * Q ∧
      (uValueZ bits σ F lead trail inc st pos).2.1 = st ∧
      ∀ u : ℚ, 0 < u → u < 1 →
        T < (st.n : ℚ) + fracVal (2 ^ bits) st.d +
            u * (((2 ^ bits : ℕ) : ℚ))⁻¹ ^ st.d.length ∧
        (st.n : ℚ) + fracVal (2 ^ bits) st.d +
            u * (((2 ^ bits : ℕ) : ℚ))⁻¹ ^ st.d.length < T + Q := by
  refine ⟨((st.n / 2 ^ trail.toNat * 2 ^ trail.toNat : ℕ) : ℚ),
    (2 : ℚ) ^ trail.toNat, by positivity, ?_, ?_, ?_⟩
  · unfold uValueZ
    rw [if_pos htr]
    ring
  · unfold uValueZ
    rw [if_pos htr]
  · intro u hu0 hu1
    have hB2 : 2 ≤ 2 ^ bits := by
      calc 2 = 2 ^ 1 := by norm_num
        _ ≤ 2 ^ bits := Nat.pow_le_pow_right (by norm_num) hbits
    obtain ⟨hrem0, hrem1⟩ := rem_bounds (2 ^ bits) hB2 st.d hd 0 u hu0 hu1
    simp only [List.drop_zero, Nat.sub_zero] at hrem0 hrem1
    have hTn : (st.n / 2 ^ trail.toNat * 2 ^ trail.toNat : ℕ) ≤ st.n :=
      Nat.div_mul_le_self _ _
    have hTn2 : st.n <
        st.n / 2 ^ trail.toNat * 2 ^ trail.toNat + 2 ^ trail.toNat := by
      have h1 := Nat.div_add_mod st.n (2 ^ trail.toNat)
      have h2 := Nat.mod_lt st.n (y := 2 ^ trail.toNat) (by positivity)
      have h3 := Nat.mul_comm (st.n / 2 ^ trail.toNat) (2 ^ trail.toNat)
      omega
    have hTnq : ((st.n / 2 ^ trail.toNat * 2 ^ trail.toNat : ℕ) : ℚ) ≤
        (st.n : ℚ) := by exact_mod_cast hTn
    have hTn2q : (st.n : ℚ) + 1 ≤
        ((st.n / 2 ^ trail.toNat * 2 ^ trail.toNat : ℕ) : ℚ) +
          (2 : ℚ) ^ trail.toNat := by
      have : ((st.n + 1 : ℕ) : ℚ) ≤
          ((st.n / 2 ^ trail.toNat * 2 ^ trail.toNat + 2 ^ trail.toNat : ℕ) :
            ℚ) := by exact_mod_cast hTn2
      push_cast at this ⊢
      linarith
    constructor
    · linarith
    · linarith

end Exrandom

namespace Exrandom

lemma uValueZ_spec_underflow (bits : ℕ) (σ : ℕ → ℕ) (F : FSpec)
    (lead trail : ℤ) (inc : ℚ) (st : URand) (pos : ℕ)
    (hbits : 1 ≤ bits) (htr : trail < 0) (hlead : lead < F.minExp)
    (hn : st.n = 0) (hd : ∀ d ∈ st.d, d < 2 ^ bits)
    (i : ℕ) (hi : i < st.d.length)
    (hz : ∀ j, j < i → st.d.getD j 0 = 0)
    (hbit : (highBitIdx (st.d.getD i 0) : ℤ) - (i + 1 : ℕ) * bits <
      F.minExp) :
    ∃ T Q : ℚ, 0 < Q ∧
      (uValueZ bits σ F lead trail inc st pos).1 = T + inc * Q ∧
      (uValueZ bits σ F lead trail inc st pos).2.1 = st ∧
      ∀ u : ℚ, 0 < u → u < 1 →
        T < (st.n : ℚ) + fracVal (2 ^ bits) st.d +
            u * (((2 ^ bits : ℕ) : ℚ))⁻¹ ^ st.d.length ∧
        (st.n : ℚ) + fracVal (2 ^ bits) st.d +
            u * (((2 ^ bits : ℕ) : ℚ))⁻¹ ^ st.d.length < T + Q := by
  have hB2 : 2 ≤ 2 ^ bits := by
    calc 2 = 2 ^ 1 := by norm_num
      _ ≤ 2 ^ bits := Nat.pow_le_pow_right (by norm_num) hbits
  have hBq : (0 : ℚ) < ((2 ^ bits : ℕ) : ℚ) := by
    have : (0 : ℕ) < 2 ^ bits := by positivity
    exact_mod_cast this
  have hβ : (0 : ℚ) < (((2 ^ bits : ℕ) : ℚ))⁻¹ := by positivity
  refine ⟨0, (2 : ℚ) ^ (F.minExp - 1), zpow_pos (by norm_num) _, ?_, ?_, ?_⟩
  · unfold uValueZ
    rw [if_neg (by omega), if_neg (by omega)]
    ring
  · unfold uValueZ
    rw [if_neg (by omega), if_neg (by omega)]
  · intro u hu0 hu1
    have hfrac0 := fracVal_nonneg (2 ^ bits) st.d
    have hβlen : (0 : ℚ) < (((2 ^ bits : ℕ) : ℚ))⁻¹ ^ st.d.length := by
      positivity
    constructor
    · rw [hn, Nat.cast_zero]
      have := mul_pos hu0 hβlen
      linarith
    · -- magnitude < 2^(minExp - 1)
      obtain ⟨_, hrem1⟩ := rem_bounds (2 ^ bits) hB2 st.d hd (i + 1) u hu0 hu1
      have hdec := mag_decomp (2 ^ bits) (by omega) st.d (i + 1) (by omega) u
      have htake : fracVal (2 ^ bits) (st.d.take (i + 1)) =
          ((st.d.getD i 0 : ℚ)) * ((((2 ^ bits : ℕ) : ℚ))⁻¹ ^ (i + 1)) := by
        rw [fracVal_take_succ (2 ^ bits) i st.d hi,
          fracVal_take_zero (2 ^ bits) i st.d hz]
        rw [pow_succ]
        field_simp
      have hdi : (st.d.getD i 0 : ℚ) + 1 ≤
          (2 : ℚ) ^ highBitIdx (st.d.getD i 0) := by
        have h1 : st.d.getD i 0 < 2 ^ highBitIdx (st.d.getD i 0) :=
          highBitIdx_lt _
        have : ((st.d.getD i 0 + 1 : ℕ) : ℚ) ≤
            ((2 ^ highBitIdx (st.d.getD i 0) : ℕ) : ℚ) := by
          exact_mod_cast h1
        push_cast at this
        linarith
      have hβpos : (0 : ℚ) < (((2 ^ bits : ℕ) : ℚ))⁻¹ ^ (i + 1) := by
        positivity
      have hmag : (st.n : ℚ) + fracVal (2 ^ bits) st.d +
          u * (((2 ^ bits : ℕ) : ℚ))⁻¹ ^ st.d.length <
          ((st.d.getD i 0 : ℚ) + 1) * ((((2 ^ bits : ℕ) : ℚ))⁻¹ ^ (i + 1)) := by
        rw [hn, Nat.cast_zero, zero_add, hdec, htake]
        have hkey := mul_lt_mul_of_pos_left hrem1 hβpos
        linarith
      have hpow : ((2 : ℚ) ^ highBitIdx (st.d.getD i 0)) *
          ((((2 ^ bits : ℕ) : ℚ))⁻¹ ^ (i + 1)) ≤ (2 : ℚ) ^ (F.minExp - 1) := by
        have hcast : (((2 ^ bits : ℕ) : ℚ))⁻¹ = (2 : ℚ) ^ (-(bits : ℤ)) := by
          rw [zpow_neg, zpow_natCast]
          push_cast
          ring_nf
        rw [hcast, ← zpow_natCast ((2 : ℚ) ^ (-(bits : ℤ))) (i + 1),
          ← zpow_mul, ← zpow_natCast (2 : ℚ) (highBitIdx (st.d.getD i 0)),
          ← zpow_add₀ (by norm_num : (2 : ℚ) ≠ 0)]
        refine zpow_le_zpow_right₀ (by norm_num) ?_
        push_cast at hbit ⊢
        linarith
      calc (st.n : ℚ) + fracVal (2 ^ bits) st.d +
          u * (((2 ^ bits : ℕ) : ℚ))⁻¹ ^ st.d.length
          < ((st.d.getD i 0 : ℚ) + 1) *
            ((((2 ^ bits : ℕ) : ℚ))⁻¹ ^ (i + 1)) := hmag
        _ ≤ ((2 : ℚ) ^ highBitIdx (st.d.getD i 0)) *
            ((((2 ^ bits : ℕ) : ℚ))⁻¹ ^ (i + 1)) :=
          mul_le_mul_of_nonneg_right hdi (le_of_lt hβpos)
        _ ≤ (2 : ℚ) ^ (F.minExp - 1) := hpow
        _ = 0 + (2 : ℚ) ^ (F.minExp - 1) := by ring

end Exrandom

namespace Exrandom

lemma fold_closed (B : ℕ) (l : List ℕ) (z : ℚ) (k : ℕ)
    (hk : l.length = k) :
    (l.foldr (fun (dj : ℕ) (acc : ℚ) => (dj : ℚ) + acc * ((B : ℚ))⁻¹) z) *
        ((B : ℚ))⁻¹ =
      fracVal B l + z * ((B : ℚ))⁻¹ ^ (k + 1) := by
  rw [foldr_digits_split, hk]
  rw [fracVal_eq_foldr B l]
  rw [pow_succ]
  ring

lemma uValueZ_spec_neg (bits : ℕ) (σ : ℕ → ℕ) (F : FSpec)
    (lead trail : ℤ) (inc : ℚ) (st : URand) (pos : ℕ)
    (hbits : 1 ≤ bits) (htr : trail < 0) (hlead : F.minExp ≤ lead)
    (hσ : ∀ i2, σ i2 < 2 ^ bits) (hd : ∀ d ∈ st.d, d < 2 ^ bits) :
    ∃ T Q : ℚ, 0 < Q ∧
      (uValueZ bits σ F lead trail inc st pos).1 = T + inc * Q ∧
      (uValueZ bits σ F lead trail inc st pos).2.1 =
        (URand.digit σ st pos (((-trail).toNat - 1) / bits)).2.1 ∧
      ∀ u : ℚ, 0 < u → u < 1 →
        T < ((URand.digit σ st pos
              (((-trail).toNat - 1) / bits)).2.1.n : ℚ) +
            fracVal (2 ^ bits)
              (URand.digit σ st pos (((-trail).toNat - 1) / bits)).2.1.d +
            u * (((2 ^ bits : ℕ) : ℚ))⁻¹ ^
              (URand.digit σ st pos
                (((-trail).toNat - 1) / bits)).2.1.d.length ∧
        ((URand.digit σ st pos
              (((-trail).toNat - 1) / bits)).2.1.n : ℚ) +
            fracVal (2 ^ bits)
              (URand.digit σ st pos (((-trail).toNat - 1) / bits)).2.1.d +
            u * (((2 ^ bits : ℕ) : ℚ))⁻¹ ^
              (URand.digit σ st pos
                (((-trail).toNat - 1) / bits)).2.1.d.length < T + Q := by
  unfold uValueZ
  rw [if_neg (by omega : ¬(0 : ℤ) ≤ trail), if_pos hlead]
  have hcast : ((2 ^ bits : ℕ) : ℚ) = (2 : ℚ) ^ bits := by push_cast; ring
  rw [show ((2 : ℚ) ^ bits)⁻¹ = (((2 ^ bits : ℕ) : ℚ))⁻¹ from by
    rw [hcast]]
  set m : ℕ := (-trail).toNat with hmdef
  set k : ℕ := (m - 1) / bits with hkdef
  set tt : ℕ := (k + 1) * bits - m with httdef
  set st' : URand := (URand.digit σ st pos k).2.1 with hst'def
  set dk : ℕ := (URand.digit σ st pos k).1 with hdkdef
  have hklen : k < st'.d.length := URand_digit_len σ st pos k
  have hd' : ∀ d ∈ st'.d, d < 2 ^ bits :=
    URand_digit_lt (2 ^ bits) σ st pos k hσ hd
  have hgetD : st'.d.getD k 0 = dk := URand_digit_getD σ st pos k
  have hB2 : 2 ≤ 2 ^ bits := by
    calc 2 = 2 ^ 1 := by norm_num
      _ ≤ 2 ^ bits := Nat.pow_le_pow_right (by norm_num) hbits
  have hBq : (0 : ℚ) < ((2 ^ bits : ℕ) : ℚ) := by
    have : (0 : ℕ) < 2 ^ bits := by positivity
    exact_mod_cast this
  have hβ : (0 : ℚ) < (((2 ^ bits : ℕ) : ℚ))⁻¹ := by positivity
  have hn' : st'.n = st.n := (URand_digit_ext σ st pos k).2.1
  refine ⟨(st.n : ℚ) + fracVal (2 ^ bits) (st'.d.take k) +
      ((dk / 2 ^ tt * 2 ^ tt : ℕ) : ℚ) * (((2 ^ bits : ℕ) : ℚ))⁻¹ ^ (k + 1),
    (2 : ℚ) ^ tt * (((2 ^ bits : ℕ) : ℚ))⁻¹ ^ (k + 1), by positivity,
    ?_, rfl, ?_⟩
  · have hclosed := fold_closed (2 ^ bits) (st'.d.take k)
      (inc * 2 ^ tt + ((dk / 2 ^ tt * 2 ^ tt : ℕ) : ℚ)) k
      (by rw [List.length_take]; omega)
    have : (st.n : ℚ) +
        ((st'.d.take k).foldr
          (fun (dj : ℕ) (acc : ℚ) => (dj : ℚ) + acc * (((2 ^ bits : ℕ) : ℚ))⁻¹)
          (inc * 2 ^ tt + ((dk / 2 ^ tt * 2 ^ tt : ℕ) : ℚ))) *
          (((2 ^ bits : ℕ) : ℚ))⁻¹ =
        (st.n : ℚ) + fracVal (2 ^ bits) (st'.d.take k) +
          (inc * 2 ^ tt + ((dk / 2 ^ tt * 2 ^ tt : ℕ) : ℚ)) *
            (((2 ^ bits : ℕ) : ℚ))⁻¹ ^ (k + 1) := by
      rw [hclosed]; ring
    rw [this]
    ring
  · intro u hu0 hu1
    obtain ⟨hrem0, hrem1⟩ :=
      rem_bounds (2 ^ bits) hB2 st'.d hd' (k + 1) u hu0 hu1
    have hdec := mag_decomp (2 ^ bits) (by omega) st'.d (k + 1)
      (by omega) u
    have htake : fracVal (2 ^ bits) (st'.d.take (k + 1)) =
        fracVal (2 ^ bits) (st'.d.take k) +
          (dk : ℚ) * (((2 ^ bits : ℕ) : ℚ))⁻¹ ^ (k + 1) := by
      rw [fracVal_take_succ (2 ^ bits) k st'.d hklen, hgetD]
      rw [pow_succ]
      field_simp
    have hmask1 : dk / 2 ^ tt * 2 ^ tt ≤ dk := Nat.div_mul_le_self _ _
    have hmask2 : dk + 1 ≤ dk / 2 ^ tt * 2 ^ tt + 2 ^ tt := by
      have h1 := Nat.div_add_mod dk (2 ^ tt)
      have h2 := Nat.mod_lt dk (y := 2 ^ tt) (by positivity)
      have h3 := Nat.mul_comm (dk / 2 ^ tt) (2 ^ tt)
      omega
    have hmask1q : ((dk / 2 ^ tt * 2 ^ tt : ℕ) : ℚ) ≤ (dk : ℚ) := by
      exact_mod_cast hmask1
    have hmask2q : (dk : ℚ) + 1 ≤
        ((dk / 2 ^ tt * 2 ^ tt : ℕ) : ℚ) + (2 : ℚ) ^ tt := by
      have : ((dk + 1 : ℕ) : ℚ) ≤
          ((dk / 2 ^ tt * 2 ^ tt + 2 ^ tt : ℕ) : ℚ) := by
        exact_mod_cast hmask2
      push_cast at this ⊢
      linarith
    have hβk : (0 : ℚ) < (((2 ^ bits : ℕ) : ℚ))⁻¹ ^ (k + 1) := by positivity
    have hmageq : (st'.n : ℚ) + fracVal (2 ^ bits) st'.d +
        u * (((2 ^ bits : ℕ) : ℚ))⁻¹ ^ st'.d.length =
        (st.n : ℚ) + fracVal (2 ^ bits) (st'.d.take k) +
          (dk : ℚ) * (((2 ^ bits : ℕ) : ℚ))⁻¹ ^ (k + 1) +
          (((2 ^ bits : ℕ) : ℚ))⁻¹ ^ (k + 1) *
            (fracVal (2 ^ bits) (st'.d.drop (k + 1)) +
              u * (((2 ^ bits : ℕ) : ℚ))⁻¹ ^ (st'.d.length - (k + 1))) := by
      rw [hn']
      linear_combination hdec + htake
    rw [hmageq]
    constructor
    · have h1 := mul_le_mul_of_nonneg_right hmask1q (le_of_lt hβk)
      have h2 := mul_lt_mul_of_pos_left hrem0 hβk
      nlinarith
    · have h1 := mul_le_mul_of_nonneg_right hmask2q (le_of_lt hβk)
      have h2 := mul_lt_mul_of_pos_left hrem1 hβk
      nlinarith

end Exrandom

namespace Exrandom

lemma uValue_assemble (B : ℕ) (s FLv : ℤ) (r : ℚ) (f : ℤ) (x' : URand)
    (T Q inc : ℚ)
    (hs : s = 1 ∨ s = -1) (hFL : FLv = 1 ∨ FLv = -1)
    (hinc : inc = if 0 < FLv then 1 else 0)
    (hr : r = (s : ℚ) * (T + inc * Q)) (hf : f = FLv * s)
    (hx's : x'.s = s)
    (hbounds : ∀ u : ℚ, 0 < u → u < 1 →
      T < (x'.n : ℚ) + fracVal B x'.d + u * ((B : ℚ)⁻¹) ^ x'.d.length ∧
      (x'.n : ℚ) + fracVal B x'.d + u * ((B : ℚ)⁻¹) ^ x'.d.length < T + Q) :
    f ≠ 0 ∧ ∀ u : ℚ, 0 < u → u < 1 →
      (0 < f → uVal B x' u < r) ∧ (f < 0 → r < uVal B x' u) ∧
      (f = 0 → r = uVal B x' u) := by
  constructor
  · rcases hs with h1 | h1 <;> rcases hFL with h2 | h2 <;>
      simp [hf, h1, h2]
  · intro u hu0 hu1
    obtain ⟨hlo, hhi⟩ := hbounds u hu0 hu1
    have hmagdef : uVal B x' u = (x'.s : ℚ) *
        ((x'.n : ℚ) + fracVal B x'.d + u * ((B : ℚ)⁻¹) ^ x'.d.length) := rfl
    rcases hs with h1 | h1 <;> rcases hFL with h2 | h2
    · -- s = 1, FL = 1: rounded up, f = 1
      refine ⟨fun _ => ?_, fun hc => ?_, fun hc => ?_⟩
      · rw [hmagdef, hx's, h1, hr, h1, hinc, h2]
        rw [if_pos (by norm_num : (0 : ℤ) < 1), Int.cast_one, one_mul,
          one_mul, one_mul]
        linarith
      · rw [hf, h2, h1] at hc; norm_num at hc
      · rw [hf, h2, h1] at hc; norm_num at hc
    · -- s = 1, FL = -1: rounded down, f = -1
      refine ⟨fun hc => ?_, fun _ => ?_, fun hc => ?_⟩
      · rw [hf, h2, h1] at hc; norm_num at hc
      · rw [hmagdef, hx's, h1, hr, h1, hinc, h2]
        rw [if_neg (by norm_num : ¬(0 : ℤ) < -1), Int.cast_one, one_mul,
          one_mul, zero_mul, add_zero]
        linarith
      · rw [hf, h2, h1] at hc; norm_num at hc
    · -- s = -1, FL = 1: f = -1, r = -(T+Q) below the value
      refine ⟨fun hc => ?_, fun _ => ?_, fun hc => ?_⟩
      · rw [hf, h2, h1] at hc; norm_num at hc
      · rw [hmagdef, hx's, h1, hr, h1, hinc, h2]
        rw [if_pos (by norm_num : (0 : ℤ) < 1), one_mul]
        push_cast
        linarith
      · rw [hf, h2, h1] at hc; norm_num at hc
    · -- s = -1, FL = -1: f = 1, r = -T above the value
      refine ⟨fun _ => ?_, fun hc => ?_, fun hc => ?_⟩
      · rw [hmagdef, hx's, h1, hr, h1, hinc, h2]
        rw [if_neg (by norm_num : ¬(0 : ℤ) < -1), zero_mul, add_zero]
        push_cast
        linarith
      · rw [hf, h2, h1] at hc; norm_num at hc
      · rw [hf, h2, h1] at hc; norm_num at hc

end Exrandom

namespace Exrandom

/-- C1: for every u-rand, digit stream, and rounding mode `rnd`,
`u_rand::value<RealType>(g, rnd, flag)` (binary regime: radix 2,
base `2^bits`) returns a value `r` and sets the inexact flag `f` — the
flag is computed for the magnitude and then multiplied by the sign `s` —
such that `f > 0` implies `r > x`, `f < 0` implies `r < x`, and `f = 0`
implies `r = x`, where `x` is the real number denoted by the u-rand
(final state, with the unrealized uniform suffix `U` anywhere in the
open interval `(0,1)`).  In fact `f` is never `0`, so the last clause is
vacuous. -/
theorem uValue_inexact (bits : ℕ) (σ : ℕ → ℕ) (F : FSpec) (rnd : RStyle)
    (x : URand) (pos : ℕ) (r : ℚ) (f : ℤ) (x' : URand) (pos' : ℕ)
    (hbits : 1 ≤ bits) (hminExp : F.minExp ≤ 0)
    (hs : x.s = 1 ∨ x.s = -1) (hxd : ∀ j ∈ x.d, j < 2 ^ bits)
    (hσ : ∀ i, σ i < 2 ^ bits)
    (h : uValue bits σ F rnd x pos = (r, f, x', pos')) :
    f ≠ 0 ∧ ∀ u : ℚ, 0 < u → u < 1 →
      (0 < f → uVal (2 ^ bits) x' u < r) ∧
      (f < 0 → r < uVal (2 ^ bits) x' u) ∧
      (f = 0 → r = uVal (2 ^ bits) x' u) := by
  unfold uValue at h
  obtain ⟨hLs, hLn, ⟨extL, hLd⟩, hLrange, hLund⟩ :=
    uValueLead_spec bits σ F x pos hminExp
  have hsL : (uValueLead bits σ F x pos).2.1.s = 1 ∨
      (uValueLead bits σ F x pos).2.1.s = -1 := by rw [hLs]; exact hs
  obtain ⟨hFLpm, hFs, hFn, ⟨extF, hFd⟩, hFrange⟩ :=
    uValueFlag_spec bits σ rnd (uValueLead bits σ F x pos).2.1
      (uValueLead bits σ F x pos).2.2
      (uValueTrail F (uValueLead bits σ F x pos).1) hsL
  set L := uValueLead bits σ F x pos with hLdef
  set tr := uValueTrail F L.1 with htrdef
  set FL := uValueFlag bits σ rnd L.2.1 L.2.2 tr with hFLdef
  set inc : ℚ := if 0 < FL.1 then 1 else 0 with hincdef
  simp only [Prod.mk.injEq] at h
  obtain ⟨hr, hf, hrest⟩ := h
  have hx' : (uValueZ bits σ F L.1 tr inc FL.2.1 FL.2.2).2.1 = x' := by
    rw [hrest]
  have hpos' : (uValueZ bits σ F L.1 tr inc FL.2.1 FL.2.2).2.2 = pos' := by
    rw [hrest]
  have hLdlt : ∀ d ∈ L.2.1.d, d < 2 ^ bits := hLrange (2 ^ bits) hσ hxd
  have hFLd : ∀ d ∈ FL.2.1.d, d < 2 ^ bits := hFrange (2 ^ bits) hσ hLdlt
  have hFLn : FL.2.1.n = x.n := by rw [hFn, hLn]
  have hFLs : FL.2.1.s = x.s := by rw [hFs, hLs]
  rcases le_or_lt 0 tr with hA | hneg
  · -- trail ≥ 0
    obtain ⟨T, Q, hQ, hz, hsteq, hbounds⟩ :=
      uValueZ_spec_nonneg bits σ F L.1 tr inc FL.2.1 FL.2.2 hbits hA hFLd
    refine uValue_assemble (2 ^ bits) x.s FL.1 r f x' T Q inc hs hFLpm
      hincdef ?_ hf.symm ?_ ?_
    · rw [← hr, hz]
    · rw [← hx', hsteq, hFLs]
    · rw [← hx', hsteq]
      exact hbounds
  · rcases le_or_lt F.minExp L.1 with hBm | hCm
    · -- trail < 0, lead ≥ min_exp: assembly from a fractional digit
      obtain ⟨T, Q, hQ, hz, hsteq, hbounds⟩ :=
        uValueZ_spec_neg bits σ F L.1 tr inc FL.2.1 FL.2.2 hbits hneg hBm
          hσ hFLd
      have hds := URand_digit_ext σ FL.2.1 FL.2.2 (((-tr).toNat - 1) / bits)
      refine uValue_assemble (2 ^ bits) x.s FL.1 r f x' T Q inc hs hFLpm
        hincdef ?_ hf.symm ?_ ?_
      · rw [← hr, hz]
      · rw [← hx', hsteq, hds.1, hFLs]
      · rw [← hx', hsteq]
        exact hbounds
    · -- underflow: lead < min_exp
      obtain ⟨hxn0, i, hilen, hzero, hbit⟩ := hLund hCm
      have hn0 : FL.2.1.n = 0 := by rw [hFLn, hxn0]
      have hilen' : i < FL.2.1.d.length := by
        rw [hFd, List.length_append]
        omega
      have hzero' : ∀ j, j < i → FL.2.1.d.getD j 0 = 0 := by
        intro j hj
        rw [hFd, List.getD_append _ _ 0 j (by omega)]
        exact hzero j hj
      have hbit' : (highBitIdx (FL.2.1.d.getD i 0) : ℤ) -
          (i + 1 : ℕ) * bits < F.minExp := by
        rw [hFd, List.getD_append _ _ 0 i hilen]
        exact hbit
      obtain ⟨T, Q, hQ, hz, hsteq, hbounds⟩ :=
        uValueZ_spec_underflow bits σ F L.1 tr inc FL.2.1 FL.2.2 hbits hneg
          hCm hn0 hFLd i hilen' hzero' hbit'
      refine uValue_assemble (2 ^ bits) x.s FL.1 r f x' T Q inc hs hFLpm
        hincdef ?_ hf.symm ?_ ?_
      · rw [← hr, hz]
      · rw [← hx', hsteq, hFLs]
      · rw [← hx', hsteq]
        exact hbounds

end Exrandom

namespace Exrandom

/-- Witness for C1: a concrete rounding. With base 2 (`bits = 1`), the
alternating digit stream, 3 digits of precision, `min_exp = -2` and
round-to-nearest, the u-rand `(+, 0; )` rounds to `5/16` with flag `-1`,
and for the concrete suffix `u = 1/3` the rounded value is indeed below
the exact one. -/
theorem uValue_inexact_wit :
    uValue 1 (fun i => i % 2) ⟨3, -2, true⟩ RStyle.toNearest ⟨1, 0, []⟩ 0 =
      (5/16, -1, ⟨1, 0, [0, 1, 0, 1, 0]⟩, 5) ∧
    (-1 : ℤ) ≠ 0 ∧
    (5/16 : ℚ) < uVal (2 ^ 1) ⟨1, 0, [0, 1, 0, 1, 0]⟩ (1/3) := by
  have heq : uValue 1 (fun i => i % 2) ⟨3, -2, true⟩ RStyle.toNearest
      ⟨1, 0, []⟩ 0 = (5/16, -1, ⟨1, 0, [0, 1, 0, 1, 0]⟩, 5) := by
    with_unfolding_all decide
  have h := uValue_inexact 1 (fun i => i % 2) ⟨3, -2, true⟩ RStyle.toNearest
    ⟨1, 0, []⟩ 0 (5/16) (-1) ⟨1, 0, [0, 1, 0, 1, 0]⟩ 5
    (le_refl 1) (by norm_num) (Or.inl rfl) (by decide)
    (fun i => Nat.mod_lt i (by norm_num)) heq
  exact ⟨heq, h.1,
    (h.2 (1/3) (by norm_num) (by norm_num)).2.1 (by norm_num)⟩

end Exrandom
